import Mathlib

/-!
Verification development for the step-validation pipeline of the Aristotle
repository (`src/services/aiValidation.ts`).

The TypeScript service is embedded shallowly:

* strings are `List Char` internally (`String` at the API boundary);
* the JavaScript regular expressions used by the service are transcribed as
  deterministic scanners (each regex involved is backtracking-free, so
  maximal-munch scanning is extensionally equal to the JS engine semantics);
* `JSON.parse` / `JSON.stringify` are modelled by an executable JSON value
  type with exact decimal numbers (mantissa and decimal-exponent; binary
  floating point and exponent notation are outside the modelled subset);
* `Math.random()`-driven wording choice is modelled by threading an arbitrary
  natural number `r` that selects an index into the fixed pool of strings;
* the external Groq "Completion" capability is modelled as an outcome value:
  either a returned response text or a thrown error.

All numeric fields (`confidence`, `score`) are rationals, matching the exact
arithmetic the code performs on them at the granularity the claims need.
-/

/-! ## Character classes and basic string utilities -/

/-- JavaScript whitespace (`\s`, `trim`), restricted to the ASCII range the
service ever meets: space, tab, line feed, vertical tab, form feed, carriage
return. -/
def jsWs (c : Char) : Bool :=
  c = ' ' || c = '\t' || c = '\n' || c = '\x0b' || c = '\x0c' || c = '\r'

/-- ASCII letter test, the `[a-zA-Z]` character class. -/
def isAlpha (c : Char) : Bool :=
  ('a' ≤ c && c ≤ 'z') || ('A' ≤ c && c ≤ 'Z')

/-- JavaScript `String.prototype.trim` on a character list. -/
def jsTrim (l : List Char) : List Char :=
  ((l.dropWhile jsWs).reverse.dropWhile jsWs).reverse

theorem dropWhile_length_le (p : Char → Bool) (l : List Char) :
    (l.dropWhile p).length ≤ l.length := by
  induction l with
  | nil => simp
  | cons c r ih =>
    by_cases h : p c
    · rw [List.dropWhile_cons_of_pos h]
      exact le_trans ih (Nat.le_succ _)
    · rw [List.dropWhile_cons_of_neg (by simpa using h)]

mutual

/-- JavaScript `str.replace(/\s+/g, ' ')`: collapse every whitespace run to a
single space (mutual with the run-skipping state). -/
def wsNormalize : List Char → List Char
  | [] => []
  | c :: r => if jsWs c then ' ' :: wsSkipRun r else c :: wsNormalize r

/-- Inside a whitespace run that has already emitted its single space. -/
def wsSkipRun : List Char → List Char
  | [] => []
  | c :: r => if jsWs c then wsSkipRun r else c :: wsNormalize r

end

/-- Substring test, JavaScript `String.prototype.includes`. -/
def containsSub (pat : List Char) : List Char → Bool
  | [] => pat.isEmpty
  | l@(_ :: rest) => pat.isPrefixOf l || containsSub pat rest

/-- ASCII lower-casing of one character (the service only ever distinguishes
keywords made of ASCII letters). -/
def lowerChar (c : Char) : Char :=
  if 'A' ≤ c && c ≤ 'Z' then Char.ofNat (c.toNat + 32) else c

/-- JavaScript `String.prototype.toLowerCase` on the modelled alphabet. -/
def jsLower (l : List Char) : List Char := l.map lowerChar

/-- Convenience: the characters of a string literal. -/
def lstr (s : String) : List Char := s.data

/-! ## Decimal digit strings -/

/-- Numeric value of a decimal digit character. -/
def digitVal (c : Char) : Nat := c.toNat - 48

/-- Value of a decimal digit run, the semantics of JavaScript `parseInt` on an
all-digit string. -/
def digitsToNat (l : List Char) : Nat := l.foldl (fun a c => 10 * a + digitVal c) 0

/-- Fuelled canonical decimal rendering of a natural number. -/
def natDigitsF : Nat → Nat → List Char
  | 0, _ => []
  | f + 1, n =>
    if n < 10 then [Nat.digitChar n] else natDigitsF f (n / 10) ++ [Nat.digitChar (n % 10)]

/-- Canonical decimal rendering of a natural number (no leading zeros). -/
def natDigits (n : Nat) : List Char := natDigitsF (n + 1) n

theorem digitsToNat_from (a : Nat) (l : List Char) :
    l.foldl (fun a c => 10 * a + digitVal c) a = a * 10 ^ l.length + digitsToNat l := by
  induction l generalizing a with
  | nil => simp [digitsToNat]
  | cons c r ih =>
    have h2 : digitsToNat (c :: r) = (10 * 0 + digitVal c) * 10 ^ r.length + digitsToNat r :=
      ih (10 * 0 + digitVal c)
    rw [List.foldl_cons, ih, List.length_cons, h2]
    ring

theorem digitsToNat_append (xs ys : List Char) :
    digitsToNat (xs ++ ys) = digitsToNat xs * 10 ^ ys.length + digitsToNat ys := by
  simp only [digitsToNat, List.foldl_append]
  exact digitsToNat_from _ ys

theorem digitVal_digitChar {m : Nat} (h : m < 10) : digitVal (Nat.digitChar m) = m := by
  interval_cases m <;> decide

theorem digitChar_isDigit {m : Nat} (h : m < 10) : (Nat.digitChar m).isDigit = true := by
  interval_cases m <;> decide

theorem natDigitsF_irrel : ∀ f g n, n < f → n < g → natDigitsF f n = natDigitsF g n := by
  intro f
  induction f with
  | zero => intro g n h; omega
  | succ f ih =>
    intro g n hf hg
    cases g with
    | zero => omega
    | succ g =>
      simp only [natDigitsF]
      by_cases h : n < 10
      · simp [h]
      · have hd : n / 10 < n := Nat.div_lt_self (by omega) (by omega)
        simp only [if_neg h]
        rw [ih g (n / 10) (by omega) (by omega)]

theorem natDigits_lt10 {n : Nat} (h : n < 10) : natDigits n = [Nat.digitChar n] := by
  simp [natDigits, natDigitsF, h]

theorem natDigits_ge10 {n : Nat} (h : ¬ n < 10) :
    natDigits n = natDigits (n / 10) ++ [Nat.digitChar (n % 10)] := by
  have hd : n / 10 < n := Nat.div_lt_self (by omega) (by omega)
  show natDigitsF (n + 1) n = natDigitsF (n / 10 + 1) (n / 10) ++ [Nat.digitChar (n % 10)]
  rw [show natDigitsF (n + 1) n = if n < 10 then [Nat.digitChar n]
      else natDigitsF n (n / 10) ++ [Nat.digitChar (n % 10)] from rfl, if_neg h,
    natDigitsF_irrel n (n / 10 + 1) (n / 10) (by omega) (by omega)]

theorem digitsToNat_natDigits (n : Nat) : digitsToNat (natDigits n) = n := by
  induction n using Nat.strong_induction_on with
  | _ n ih =>
    by_cases h : n < 10
    · rw [natDigits_lt10 h]
      simp [digitsToNat, digitVal_digitChar h]
    · rw [natDigits_ge10 h, digitsToNat_append,
        ih (n / 10) (Nat.div_lt_self (by omega) (by omega))]
      simp [digitsToNat, digitVal_digitChar (Nat.mod_lt n (by omega))]
      omega

theorem natDigits_all_digit (n : Nat) : ∀ c ∈ natDigits n, c.isDigit = true := by
  induction n using Nat.strong_induction_on with
  | _ n ih =>
    by_cases h : n < 10
    · rw [natDigits_lt10 h]
      intro c hc
      simp only [List.mem_singleton] at hc
      subst hc
      exact digitChar_isDigit h
    · rw [natDigits_ge10 h]
      intro c hc
      rcases List.mem_append.mp hc with hc | hc
      · exact ih (n / 10) (Nat.div_lt_self (by omega) (by omega)) c hc
      · simp only [List.mem_singleton] at hc
        subst hc
        exact digitChar_isDigit (Nat.mod_lt n (by omega))

theorem natDigits_ne_nil (n : Nat) : natDigits n ≠ [] := by
  by_cases h : n < 10
  · rw [natDigits_lt10 h]; simp
  · rw [natDigits_ge10 h]; simp

/-! ## The regular expressions of the heuristic validator

Every regex below is anchored and built from greedy character classes whose
alphabets are disjoint from the literal that follows them, so the JS engine
never backtracks on them; the deterministic maximal-munch scanners here are
extensionally equal to the engine semantics. -/

/-- Digit-run splitter: `(l.takeWhile isDigit, l.dropWhile isDigit)`. -/
def dSpan (l : List Char) : List Char × List Char :=
  (l.takeWhile Char.isDigit, l.dropWhile Char.isDigit)

/-- Greedy `\s*`. -/
def wSkip (l : List Char) : List Char := l.dropWhile jsWs

/-- Optional literal `x?`. -/
def optX : List Char → List Char
  | 'x' :: r => r
  | l => l

/-- Consume one expected literal character. -/
def eatCh (c : Char) : List Char → Option (List Char)
  | d :: r => if d = c then some r else none
  | [] => none

/-- Consume a greedy non-empty digit run (`\d+`), returning it and the rest. -/
def eatDigits1 (l : List Char) : Option (List Char × List Char) :=
  if (dSpan l).1.isEmpty then none else some (dSpan l)

/-- Consume one `[+\-]` sign character. -/
def eatSign : List Char → Option (Char × List Char)
  | d :: r => if d = '+' || d = '-' then some (d, r) else none
  | [] => none

/-- The sign-error detector regex `^(\d*)x?\s*=\s*(\d+)\s*\+\s*(\d+)$` of
`checkForCommonMistakes`; returns the three capture groups. -/
def signMatch (l : List Char) : Option (List Char × List Char × List Char) :=
  (eatCh '=' (wSkip (optX (dSpan l).2))).bind fun r3 =>
  (eatDigits1 (wSkip r3)).bind fun q1 =>
  (eatCh '+' (wSkip q1.2)).bind fun r5 =>
  (eatDigits1 (wSkip r5)).bind fun q2 =>
  if q2.2.isEmpty then some ((dSpan l).1, q1.1, q2.1) else none

/-- The arithmetic-error regex `^(\d+)\s*([+\-])\s*(\d+)\s*=\s*(\d+)$` of
`checkForCommonMistakes`; returns the four capture groups. -/
def arithMatch (l : List Char) : Option (List Char × Char × List Char × List Char) :=
  (eatDigits1 l).bind fun p1 =>
  (eatSign (wSkip p1.2)).bind fun ps =>
  (eatDigits1 (wSkip ps.2)).bind fun p2 =>
  (eatCh '=' (wSkip p2.2)).bind fun r4 =>
  (eatDigits1 (wSkip r4)).bind fun p3 =>
  if p3.2.isEmpty then some (p1.1, ps.1, p2.1, p3.1) else none

/-- `isValidAlgebraStep` pattern 1: `^\d*x?\s*=\s*\d+$`. -/
def patEqNum (l : List Char) : Bool :=
  let (_, r1) := dSpan l
  match wSkip (optX r1) with
  | '=' :: r2 =>
    let (n, r3) := dSpan (wSkip r2)
    !n.isEmpty && r3.isEmpty
  | _ => false

/-- `isValidAlgebraStep` pattern 2: `^\d*x?\s*[+\-]\s*\d+\s*=\s*\d+$`. -/
def patTermEq (l : List Char) : Bool :=
  let (_, r1) := dSpan l
  match wSkip (optX r1) with
  | c :: r2 =>
    (c = '+' || c = '-') &&
    (let (n1, r3) := dSpan (wSkip r2)
     !n1.isEmpty &&
     match wSkip r3 with
     | '=' :: r4 =>
       let (n2, r5) := dSpan (wSkip r4)
       !n2.isEmpty && r5.isEmpty
     | _ => false)
  | _ => false

/-- `isValidAlgebraStep` pattern 3: `^\d+\s*[+\-]\s*\d+\s*=?\s*\d*$`. -/
def patArithOpen (l : List Char) : Bool :=
  let (a, r1) := dSpan l
  !a.isEmpty &&
  match wSkip r1 with
  | c :: r2 =>
    (c = '+' || c = '-') &&
    (let (b, r3) := dSpan (wSkip r2)
     !b.isEmpty &&
     (let r4 := wSkip r3
      let r5 := match r4 with
        | '=' :: t => wSkip t
        | _ => r4
      (dSpan r5).2.isEmpty))
  | _ => false

/-- `isValidAlgebraStep` pattern 4: `^\d+\s*\/\s*\d+\s*=?\s*\d*$`. -/
def patDivOpen (l : List Char) : Bool :=
  let (a, r1) := dSpan l
  !a.isEmpty &&
  match wSkip r1 with
  | '/' :: r2 =>
    let (b, r3) := dSpan (wSkip r2)
    !b.isEmpty &&
    (let r4 := wSkip r3
     let r5 := match r4 with
       | '=' :: t => wSkip t
       | _ => r4
     (dSpan r5).2.isEmpty)
  | _ => false

/-- `isValidAlgebraStep` pattern 5 (and the substitution check of
`getStepSpecificFeedback`): `^\d+\(\d+\)\s*[+\-]\s*\d+\s*=\s*\d+$`. -/
def patSubstCheck (l : List Char) : Bool :=
  let (a, r1) := dSpan l
  !a.isEmpty &&
  match r1 with
  | '(' :: r2 =>
    let (b, r3) := dSpan r2
    !b.isEmpty &&
    match r3 with
    | ')' :: r4 =>
      (match wSkip r4 with
       | c :: r5 =>
         (c = '+' || c = '-') &&
         (let (d, r6) := dSpan (wSkip r5)
          !d.isEmpty &&
          match wSkip r6 with
          | '=' :: r7 =>
            let (e, r8) := dSpan (wSkip r7)
            !e.isEmpty && r8.isEmpty
          | _ => false)
       | _ => false)
    | _ => false
  | _ => false

/-- `isValidAlgebraStep` pattern 6: `^\\frac\{\d+\}\{\d+\}` (prefix match,
unanchored at the end). -/
def patLatexFrac (l : List Char) : Bool :=
  (lstr "\\frac\x7b").isPrefixOf l &&
  (let r1 := l.drop 6
   let (a, r2) := dSpan r1
   !a.isEmpty &&
   (lstr "\x7d\x7b").isPrefixOf r2 &&
   (let (b, r3) := dSpan (r2.drop 2)
    !b.isEmpty &&
    match r3 with
    | '\x7d' :: _ => true
    | _ => false))

/-- `isValidAlgebraStep` pattern 7: `^\d+\s*=\s*\d+$`. -/
def patNumEqNum (l : List Char) : Bool :=
  let (a, r1) := dSpan l
  !a.isEmpty &&
  match wSkip r1 with
  | '=' :: r2 =>
    let (b, r3) := dSpan (wSkip r2)
    !b.isEmpty && r3.isEmpty
  | _ => false

/-- `getStepSpecificFeedback` pattern `^x\s*=\s*\d+$`. -/
def patXEq (l : List Char) : Bool :=
  match l with
  | 'x' :: r1 =>
    (match wSkip r1 with
     | '=' :: r2 =>
       let (n, r3) := dSpan (wSkip r2)
       !n.isEmpty && r3.isEmpty
     | _ => false)
  | _ => false

/-- `getStepSpecificFeedback` pattern `^\d+x\s*=\s*\d+$`. -/
def patNxEq (l : List Char) : Bool :=
  let (a, r1) := dSpan l
  !a.isEmpty &&
  match r1 with
  | 'x' :: r2 =>
    (match wSkip r2 with
     | '=' :: r3 =>
       let (n, r4) := dSpan (wSkip r3)
       !n.isEmpty && r4.isEmpty
     | _ => false)
  | _ => false

/-- `getStepSpecificFeedback` move-term pattern `^\d*x?\s*=\s*\d+\s*[+\-]\s*\d+$`. -/
def patMoveTerm (l : List Char) : Bool :=
  let (_, r1) := dSpan l
  match wSkip (optX r1) with
  | '=' :: r2 =>
    let (n1, r3) := dSpan (wSkip r2)
    !n1.isEmpty &&
    match wSkip r3 with
    | c :: r4 =>
      (c = '+' || c = '-') &&
      (let (n2, r5) := dSpan (wSkip r4)
       !n2.isEmpty && r5.isEmpty)
    | _ => false
  | _ => false

/-- `getStepSpecificFeedback` division-start pattern `^\d+\s*\/\s*\d+` (prefix
match). -/
def patDivStart (l : List Char) : Bool :=
  let (a, r1) := dSpan l
  !a.isEmpty &&
  match wSkip r1 with
  | '/' :: r2 => !(dSpan (wSkip r2)).1.isEmpty
  | _ => false

/-- `getStepSpecificFeedback` verification pattern `^(\d+)\s*=\s*\1$` — the
backreference makes the remainder after `=` have to be exactly the first
digit run. -/
def patVerify (l : List Char) : Bool :=
  let (a, r1) := dSpan l
  !a.isEmpty &&
  match wSkip r1 with
  | '=' :: r2 => wSkip r2 = a
  | _ => false

/-- `isValidAlgebraStep`: the step with whitespace runs collapsed then trimmed
has to match one of the seven algebra-shape patterns. -/
def isValidAlgebraStep (l : List Char) : Bool :=
  let n := jsTrim (wsNormalize l)
  patEqNum n || patTermEq n || patArithOpen n || patDivOpen n || patSubstCheck n ||
    patLatexFrac n || patNumEqNum n

/-! ## The heuristic validator (`fallbackValidation` and its helpers) -/

/-- The result record of validating one step (`StepValidationResult`). -/
structure StepValidationResult where
  isCorrect : Bool
  feedback : String
  explanation : Option String
  confidence : Rat
deriving DecidableEq, Repr

/-- Selection of one wording from a fixed pool: the code draws
`pool[Math.floor(Math.random() * pool.length)]`; the random draw is modelled
by the index `r` reduced modulo the pool size. -/
def pickFb (pool : List String) (r : Nat) : String := pool.getD (r % pool.length) ""

/-- Wording pool of the `x = N` branch of `getStepSpecificFeedback`. -/
def poolXSolved : List String :=
  ["🎯 Perfect! You found the value of x!",
   "🌟 Excellent! You solved for x!",
   "🚀 Great work! You isolated the variable!",
   "💎 Outstanding! You found the solution!"]

/-- Wording pool of the `Nx = N` branch. -/
def poolNxEq : List String :=
  ["✅ Correct step!",
   "👍 Nice work!",
   "🎉 Great progress!",
   "💪 You\x27re doing great!"]

/-- Wording pool of the move-term branch. -/
def poolMoveTerm : List String :=
  ["👍 Good move!",
   "🎯 Smart algebraic manipulation!",
   "✨ Nice work isolating the variable!",
   "🔥 Great step!"]

/-- Wording pool of the correct-arithmetic branch. -/
def poolArith : List String :=
  ["🧮 Correct!",
   "🎯 Perfect arithmetic!",
   "⭐ Great calculation!",
   "💯 Excellent math!"]

/-- Wording pool of the division branch. -/
def poolDivision : List String :=
  ["🔢 Good!",
   "📊 Nice division!",
   "🎯 Great work!",
   "✨ Excellent!"]

/-- Wording pool of the verification branch. -/
def poolVerify : List String :=
  ["✓ Perfect verification! Your check confirms the solution.",
   "🎉 Excellent! You verified your answer correctly!",
   "🌟 Outstanding! Your solution checks out!",
   "💎 Perfect! You double-checked your work!"]

/-- Wording pool of the substitution-check branch. -/
def poolSubst : List String :=
  ["🔍 Excellent substitution check! You verified your answer.",
   "🎯 Perfect! You checked your solution!",
   "⭐ Great verification! Your answer is correct!",
   "🚀 Outstanding! You confirmed your solution!"]

/-- Wording pool of the default branch of `getStepSpecificFeedback`. -/
def poolDefault : List String :=
  ["✅ Good mathematical step! Keep going.",
   "👍 Nice work! Continue solving.",
   "🎯 Great progress! Keep it up.",
   "💪 You\x27re doing well! Don\x27t stop now.",
   "✨ Excellent! You\x27re on the right track.",
   "🌟 Great job! Keep solving step by step."]

/-- `checkForCommonMistakes`: the sign-error detector, then the arithmetic
recomputation; `none` when no mistake pattern fires. -/
def checkForCommonMistakes (step : List Char) : Option StepValidationResult :=
  let trimmed := jsTrim step
  match signMatch trimmed with
  | some (_, _, n2) =>
    some ⟨false,
      "🤔 Check signs: when moving " ++ String.mk n2 ++ ", it should become -" ++ String.mk n2,
      some "When moving a positive term across the equals sign, it becomes negative.",
      0.85⟩
  | none =>
    match arithMatch trimmed with
    | some (a, op, b, res) =>
      let expected : Int := if op = '+' then (digitsToNat a : Int) + digitsToNat b
        else (digitsToNat a : Int) - digitsToNat b
      if expected ≠ (digitsToNat res : Int) then
        some ⟨false,
          "❌ Arithmetic error: " ++ String.mk a ++ " " ++ String.mk [op] ++ " " ++
            String.mk b ++ " = " ++ toString expected ++ ", not " ++ String.mk res,
          none, 0.95⟩
      else none
    | none => none

/-- `getStepSpecificFeedback`: ordered branch dispatch on the trimmed step,
wording drawn from the branch pool. -/
def getStepSpecificFeedback (r : Nat) (step : List Char) : StepValidationResult :=
  let trimmed := jsTrim step
  if patXEq trimmed then ⟨true, pickFb poolXSolved r, none, 0.95⟩
  else if patNxEq trimmed then ⟨true, pickFb poolNxEq r, none, 0.9⟩
  else if patMoveTerm trimmed then ⟨true, pickFb poolMoveTerm r, none, 0.9⟩
  else
    match arithMatch trimmed with
    | some (a, op, b, res) =>
      let expected : Int := if op = '+' then (digitsToNat a : Int) + digitsToNat b
        else (digitsToNat a : Int) - digitsToNat b
      if expected = (digitsToNat res : Int) then ⟨true, pickFb poolArith r, none, 0.95⟩
      else ⟨false,
        "🤔 Check: " ++ String.mk a ++ " " ++ String.mk [op] ++ " " ++ String.mk b ++
          " = " ++ toString expected,
        none, 0.9⟩
    | none =>
      if patDivStart trimmed || containsSub (lstr "\\frac") trimmed then
        ⟨true, pickFb poolDivision r, none, 0.85⟩
      else if patVerify trimmed then ⟨true, pickFb poolVerify r, none, 0.95⟩
      else if patSubstCheck trimmed then ⟨true, pickFb poolSubst r, none, 0.9⟩
      else ⟨true, pickFb poolDefault r, none, 0.8⟩

/-- `fallbackValidation`: mistake detectors first, then the known-good algebra
shapes, then the generic acceptance heuristics, else the reject result. -/
def fallbackValidation (r : Nat) (latex : String) : StepValidationResult :=
  let trimmed := jsTrim latex.data
  match checkForCommonMistakes trimmed with
  | some res => res
  | none =>
    let hasEquals := trimmed.contains '='
    let hasNumbers := trimmed.any Char.isDigit
    let hasVariables := trimmed.any isAlpha
    let hasBasicOperations := trimmed.any fun c =>
      c = '+' || c = '-' || c = '*' || c = '/' || c = '^' || c = '(' || c = ')'
    let hasFractions := containsSub (lstr "\\frac") trimmed || trimmed.contains '/'
    let hasSquareRoot := containsSub (lstr "\\sqrt") trimmed || trimmed.contains '√'
    if isValidAlgebraStep trimmed then getStepSpecificFeedback r trimmed
    else if hasEquals && (hasNumbers || hasVariables) then
      ⟨true, "✅ Valid equation!", none, 0.9⟩
    else if (hasNumbers || hasVariables || hasFractions || hasSquareRoot) &&
        !trimmed.isEmpty then
      ⟨true, "✅ Valid expression!", none, 0.85⟩
    else if hasBasicOperations || hasNumbers || hasVariables then
      ⟨true, "👍 Good step!", none, 0.75⟩
    else ⟨false, "🤔 Write a complete equation.", none, 0.3⟩

/-! ## Solution evaluation: the deterministic fallback (`fallbackSolutionEvaluation`) -/

/-- One record of the step list handed to `evaluateCompleteSolution`. -/
structure SolStep where
  stepNumber : Nat
  latex : String
  isCorrect : Bool
  feedback : String
deriving DecidableEq, Repr

/-- The argument record of `evaluateCompleteSolution`. -/
structure SolutionData where
  originalQuestion : String
  steps : List SolStep
deriving DecidableEq, Repr

/-- The result record of evaluating a whole solution. -/
structure SolutionEvaluation where
  score : Rat
  feedback : String
  suggestions : List String
deriving DecidableEq, Repr

/-- JavaScript `Math.round` on the exact rational value: round half up. -/
def jsRound (q : Rat) : Rat := (⌊q + 1 / 2⌋ : Int)

/-- The accuracy percentage `fallbackSolutionEvaluation` computes. -/
def solAccuracy (sol : SolutionData) : Rat :=
  let totalSteps := sol.steps.length
  let correctSteps := (sol.steps.filter (·.isCorrect)).length
  if totalSteps > 0 then ((correctSteps : Rat) / (totalSteps : Rat)) * 100 else 0

/-- `fallbackSolutionEvaluation`: deterministic score from step accuracy, with
banded feedback and suggestions and the conditional sign-rule reminder. -/
def fallbackSolutionEvaluation (sol : SolutionData) : SolutionEvaluation :=
  let totalSteps := sol.steps.length
  let correctSteps := (sol.steps.filter (·.isCorrect)).length
  let accuracy := solAccuracy sol
  let score0 := jsRound accuracy
  let score := if accuracy = 100 then min 100 (score0 + 10) else score0
  let ratio := toString correctSteps ++ "/" ++ toString totalSteps ++ " steps correct."
  let banded : String × List String :=
    if accuracy ≥ 90 then
      ("🎉 Excellent! " ++ ratio,
       ["Try more complex problems to further challenge yourself",
        "Consider exploring advanced topics like quadratic equations"])
    else if accuracy ≥ 70 then
      ("👍 Good! " ++ ratio,
       ["Review the steps you missed and understand the correct approach",
        "Practice similar problems to strengthen your skills"])
    else if accuracy ≥ 50 then
      ("📚 Progress! " ++ ratio,
       ["Focus on understanding the fundamental algebraic rules",
        "Break down complex problems into smaller, manageable steps",
        "Double-check your arithmetic calculations"])
    else
      ("💪 Keep going! " ++ ratio,
       ["Review basic algebraic operations and rules",
        "Start with simpler problems and gradually increase difficulty",
        "Don\x27t hesitate to ask for help when you need it"])
  let suggestions :=
    banded.2 ++
      (if sol.steps.any (fun st => st.latex.contains '=') && correctSteps < totalSteps then
        ["Remember: when moving terms across an equals sign, change their signs"]
      else [])
  ⟨score, banded.1, suggestions⟩

/-! ## Scanner decomposition lemmas -/

/-- The head of the remainder, when there is one, fails the predicate. -/
def headNot (p : Char → Bool) (l : List Char) : Prop :=
  ∀ c, l.head? = some c → p c = false

theorem headNot_nil (p : Char → Bool) : headNot p [] := by
  intro c hc
  simp at hc

theorem headNot_cons {p : Char → Bool} {c : Char} {l : List Char} (h : p c = false) :
    headNot p (c :: l) := by
  intro d hd
  simp only [List.head?_cons, Option.some.injEq] at hd
  exact hd ▸ h

theorem takeWhile_append_stop {p : Char → Bool} {xs ys : List Char}
    (hall : ∀ c ∈ xs, p c = true) (hstop : headNot p ys) :
    (xs ++ ys).takeWhile p = xs := by
  induction xs with
  | nil =>
    cases ys with
    | nil => rfl
    | cons c t =>
      simp only [List.nil_append]
      rw [List.takeWhile_cons_of_neg]
      simp [hstop c rfl]
  | cons c t ih =>
    simp only [List.cons_append]
    rw [List.takeWhile_cons_of_pos (hall c (List.mem_cons_self c t))]
    rw [ih (fun d hd => hall d (List.mem_cons_of_mem c hd))]

theorem dropWhile_append_stop {p : Char → Bool} {xs ys : List Char}
    (hall : ∀ c ∈ xs, p c = true) (hstop : headNot p ys) :
    (xs ++ ys).dropWhile p = ys := by
  induction xs with
  | nil =>
    cases ys with
    | nil => rfl
    | cons c t =>
      simp only [List.nil_append]
      rw [List.dropWhile_cons_of_neg]
      simp [hstop c rfl]
  | cons c t ih =>
    simp only [List.cons_append]
    rw [List.dropWhile_cons_of_pos (hall c (List.mem_cons_self c t))]
    exact ih fun d hd => hall d (List.mem_cons_of_mem c hd)

theorem dSpan_append_stop {xs ys : List Char}
    (hall : ∀ c ∈ xs, c.isDigit = true) (hstop : headNot Char.isDigit ys) :
    dSpan (xs ++ ys) = (xs, ys) := by
  simp only [dSpan]
  rw [takeWhile_append_stop hall hstop, dropWhile_append_stop hall hstop]

theorem wSkip_append_all {xs ys : List Char}
    (hall : ∀ c ∈ xs, jsWs c = true) (hstop : headNot jsWs ys) :
    wSkip (xs ++ ys) = ys := by
  exact dropWhile_append_stop hall hstop

/-- A whitespace character is never a digit. -/
theorem ws_not_digit {c : Char} (h : jsWs c = true) : c.isDigit = false := by
  simp only [jsWs, Bool.or_eq_true, decide_eq_true_eq] at h
  rcases h with ((((rfl | rfl) | rfl) | rfl) | rfl) | rfl <;> decide

/-- A digit character is never whitespace. -/
theorem digit_not_ws {c : Char} (h : c.isDigit = true) : jsWs c = false := by
  cases hw : jsWs c with
  | false => rfl
  | true => rw [ws_not_digit hw] at h; cases h

theorem dropWhile_head_not (p : Char → Bool) (l : List Char) :
    headNot p (l.dropWhile p) := by
  induction l with
  | nil => exact headNot_nil p
  | cons c t ih =>
    by_cases h : p c
    · rw [List.dropWhile_cons_of_pos h]
      exact ih
    · rw [List.dropWhile_cons_of_neg (by simpa using h)]
      exact headNot_cons (by simpa using h)

theorem dropWhile_of_headNot {p : Char → Bool} {l : List Char} (h : headNot p l) :
    l.dropWhile p = l := by
  cases l with
  | nil => rfl
  | cons c t =>
    rw [List.dropWhile_cons_of_neg]
    simp [h c rfl]

theorem jsTrim_idem (l : List Char) : jsTrim (jsTrim l) = jsTrim l := by
  unfold jsTrim
  set A := l.dropWhile jsWs with hA
  set B := ((A.reverse.dropWhile jsWs).reverse : List Char) with hB
  have hBpre : B.IsPrefix A := by
    rw [hB]
    have : (A.reverse.dropWhile jsWs).IsSuffix A.reverse := List.dropWhile_suffix jsWs
    have h2 := this.reverse
    rwa [List.reverse_reverse] at h2
  have hBdrop : B.dropWhile jsWs = B := by
    cases hBc : B with
    | nil => rfl
    | cons c t =>
      apply dropWhile_of_headNot
      apply headNot_cons
      obtain ⟨u, hu⟩ := hBpre
      rw [hBc] at hu
      have hAhead : A = c :: (t ++ u) := by rw [← hu]; simp
      have := dropWhile_head_not jsWs l
      rw [← hA] at this
      have hc := this c
      rw [hAhead] at hc
      exact hc rfl
  rw [hBdrop]
  have : B.reverse.dropWhile jsWs = B.reverse := by
    apply dropWhile_of_headNot
    rw [hB, List.reverse_reverse]
    exact dropWhile_head_not jsWs A.reverse
  rw [this, List.reverse_reverse]

theorem optX_cons_ne {h : Char} {t : List Char} (hne : h ≠ 'x') : optX (h :: t) = h :: t := by
  rw [optX.eq_def]
  split
  · rename_i heq
    cases heq
    exact absurd rfl hne
  · rfl

theorem eatDigits1_some {l : List Char} {p : List Char × List Char}
    (h : eatDigits1 l = some p) : p = dSpan l ∧ (dSpan l).1.isEmpty = false := by
  unfold eatDigits1 at h
  by_cases he : (dSpan l).1.isEmpty
  · rw [if_pos he] at h
    cases h
  · rw [if_neg he] at h
    exact ⟨(Option.some.injEq _ _ ▸ h).symm, by simpa using he⟩

theorem eatSign_some {l : List Char} {p : Char × List Char} (h : eatSign l = some p) :
    l = p.1 :: p.2 ∧ (p.1 = '+' || p.1 = '-') = true := by
  cases l with
  | nil => cases h
  | cons d r =>
    simp only [eatSign] at h
    split at h
    · cases h
      rename_i hd
      exact ⟨rfl, hd⟩
    · cases h

theorem eatCh_some {c : Char} {l r : List Char} (h : eatCh c l = some r) : l = c :: r := by
  cases l with
  | nil => cases h
  | cons d t =>
    simp only [eatCh] at h
    split at h
    · cases h
      rename_i hd
      rw [hd]
    · cases h

/-- A string the arithmetic regex accepts is never accepted by the sign-error
regex: after the leading digit run the arithmetic shape shows `+`/`-` where
the sign-error shape demands `=`. -/
theorem signMatch_none_of_arith {l a : List Char} {op : Char} {b res : List Char}
    (h : arithMatch l = some (a, op, b, res)) : signMatch l = none := by
  simp only [arithMatch, Option.bind_eq_some] at h
  obtain ⟨p1, hp1, ps, hps, -⟩ := h
  obtain ⟨hp1eq, -⟩ := eatDigits1_some hp1
  obtain ⟨hsc, hsop⟩ := eatSign_some hps
  subst hp1eq
  have hkey : eatCh '=' (wSkip (optX (dSpan l).2)) = none := by
    have hne : ps.1 ≠ '=' := by
      rcases Bool.or_eq_true _ _ |>.mp hsop with h1 | h1
      · rw [decide_eq_true_eq] at h1
        rw [h1]
        decide
      · rw [decide_eq_true_eq] at h1
        rw [h1]
        decide
    cases hr1 : (dSpan l).2 with
    | nil =>
      rw [hr1] at hsc
      simp only [wSkip, List.dropWhile_nil] at hsc
      cases hsc
    | cons h0 t0 =>
      rw [hr1] at hsc
      have hx : h0 ≠ 'x' := by
        by_cases hws : jsWs h0 = true
        · intro hcon
          rw [hcon] at hws
          cases hws
        · have : wSkip (h0 :: t0) = h0 :: t0 :=
            List.dropWhile_cons_of_neg (by simpa using hws)
          rw [this] at hsc
          intro hcon
          have : h0 = ps.1 := by
            have := congrArg List.head? hsc
            simpa using this
          rw [hcon] at this
          rcases Bool.or_eq_true _ _ |>.mp hsop with h1 | h1 <;>
            rw [decide_eq_true_eq] at h1 <;> rw [← this] at h1 <;> cases h1
      rw [optX_cons_ne hx, hsc]
      simp only [eatCh, if_neg hne]
  simp only [signMatch, hkey, Option.none_bind]

theorem isEmpty_false_of_ne_nil {l : List Char} (h : l ≠ []) : l.isEmpty = false := by
  cases l with
  | nil => exact absurd rfl h
  | cons c t => rfl

theorem wSkip_space (l : List Char) : wSkip (' ' :: l) = wSkip l :=
  List.dropWhile_cons_of_pos (by decide)

theorem wSkip_stop {c : Char} (l : List Char) (h : jsWs c = false) :
    wSkip (c :: l) = c :: l :=
  List.dropWhile_cons_of_neg (by simp [h])

theorem dSpan_all {l : List Char} (h : ∀ c ∈ l, c.isDigit = true) : dSpan l = (l, []) := by
  have h2 : dSpan (l ++ []) = (l, []) :=
    dSpan_append_stop h (headNot_nil Char.isDigit)
  simpa using h2

theorem eatDigits1_build {xs ys : List Char} (hne : xs ≠ [])
    (hall : ∀ c ∈ xs, c.isDigit = true) (hstop : headNot Char.isDigit ys) :
    eatDigits1 (xs ++ ys) = some (xs, ys) := by
  unfold eatDigits1
  rw [dSpan_append_stop hall hstop]
  simp [isEmpty_false_of_ne_nil hne]

theorem optX_space (l : List Char) : optX (' ' :: l) = ' ' :: l := optX_cons_ne (by decide)

/-- A canonical arithmetic step `<digits> <op> <digits> = <digits>` is accepted
by the arithmetic-error regex with the evident capture groups. -/
theorem arithMatch_build {a b res : List Char} {op : Char}
    (ha : a ≠ []) (had : ∀ c ∈ a, c.isDigit = true)
    (hb : b ≠ []) (hbd : ∀ c ∈ b, c.isDigit = true)
    (hres : res ≠ []) (hrd : ∀ c ∈ res, c.isDigit = true)
    (hop : (op = '+' || op = '-') = true) :
    arithMatch (a ++ ' ' :: op :: ' ' :: (b ++ ' ' :: '=' :: ' ' :: res)) =
      some (a, op, b, res) := by
  have hopws : jsWs op = false := by
    rcases Bool.or_eq_true _ _ |>.mp hop with h1 | h1 <;> rw [decide_eq_true_eq] at h1 <;>
      rw [h1] <;> decide
  obtain ⟨b0, bt, rfl⟩ := List.exists_cons_of_ne_nil hb
  obtain ⟨r0, rt, rfl⟩ := List.exists_cons_of_ne_nil hres
  have hb0 : jsWs b0 = false := digit_not_ws (hbd b0 (List.mem_cons_self _ _))
  have hr0 : jsWs r0 = false := digit_not_ws (hrd r0 (List.mem_cons_self _ _))
  have e1 : eatDigits1
      (a ++ (' ' :: op :: ' ' :: ((b0 :: bt) ++ ' ' :: '=' :: ' ' :: (r0 :: rt)))) =
      some (a, ' ' :: op :: ' ' :: ((b0 :: bt) ++ ' ' :: '=' :: ' ' :: (r0 :: rt))) :=
    eatDigits1_build ha had (headNot_cons (by decide))
  have e3 : eatDigits1 ((b0 :: bt) ++ (' ' :: '=' :: ' ' :: (r0 :: rt))) =
      some (b0 :: bt, ' ' :: '=' :: ' ' :: (r0 :: rt)) :=
    eatDigits1_build hb hbd (headNot_cons (by decide))
  have e5 : eatDigits1 (r0 :: rt) = some (r0 :: rt, []) := by
    unfold eatDigits1
    rw [dSpan_all hrd]
    simp
  have s2 : wSkip (' ' :: op :: ' ' :: (b0 :: (bt ++ ' ' :: '=' :: ' ' :: (r0 :: rt)))) =
      op :: ' ' :: (b0 :: (bt ++ ' ' :: '=' :: ' ' :: (r0 :: rt))) := by
    rw [wSkip_space, wSkip_stop _ hopws]
  have s3 : wSkip (' ' :: b0 :: (bt ++ ' ' :: '=' :: ' ' :: (r0 :: rt))) =
      b0 :: (bt ++ ' ' :: '=' :: ' ' :: (r0 :: rt)) := by
    rw [wSkip_space, wSkip_stop _ hb0]
  have s4 : wSkip (' ' :: '=' :: ' ' :: (r0 :: rt)) = '=' :: ' ' :: (r0 :: rt) := by
    rw [wSkip_space, wSkip_stop _ (by decide : jsWs '=' = false)]
  have s5 : wSkip (' ' :: (r0 :: rt)) = r0 :: rt := by
    rw [wSkip_space, wSkip_stop _ hr0]
  have e2 : eatSign (op :: ' ' :: (b0 :: (bt ++ ' ' :: '=' :: ' ' :: (r0 :: rt)))) =
      some (op, ' ' :: (b0 :: (bt ++ ' ' :: '=' :: ' ' :: (r0 :: rt)))) := by
    simp [eatSign, hop]
  have e4 : eatCh '=' ('=' :: ' ' :: (r0 :: rt)) = some (' ' :: (r0 :: rt)) := by
    simp [eatCh]
  simp only [List.cons_append] at e1 e3 ⊢
  simp only [arithMatch, e1, Option.some_bind, s2, e2, s3, e3, s4, e4, s5, e5]
  simp

/-- A canonical `<digits> = <digits> + <digits>` string is accepted by the
sign-error regex with the evident capture groups. -/
theorem signMatch_build {n0 n1 n2 : List Char}
    (_h0 : n0 ≠ []) (h0d : ∀ c ∈ n0, c.isDigit = true)
    (h1 : n1 ≠ []) (h1d : ∀ c ∈ n1, c.isDigit = true)
    (h2 : n2 ≠ []) (h2d : ∀ c ∈ n2, c.isDigit = true) :
    signMatch (n0 ++ ' ' :: '=' :: ' ' :: (n1 ++ ' ' :: '+' :: ' ' :: n2)) =
      some (n0, n1, n2) := by
  obtain ⟨a0, at0, rfl⟩ := List.exists_cons_of_ne_nil h1
  obtain ⟨c0, ct0, rfl⟩ := List.exists_cons_of_ne_nil h2
  have ha0 : jsWs a0 = false := digit_not_ws (h1d a0 (List.mem_cons_self _ _))
  have hc0 : jsWs c0 = false := digit_not_ws (h2d c0 (List.mem_cons_self _ _))
  have hd1 : dSpan (n0 ++ ' ' :: '=' :: ' ' ::
      ((a0 :: at0) ++ ' ' :: '+' :: ' ' :: (c0 :: ct0))) =
      (n0, ' ' :: '=' :: ' ' :: ((a0 :: at0) ++ ' ' :: '+' :: ' ' :: (c0 :: ct0))) :=
    dSpan_append_stop h0d (headNot_cons (by decide))
  have e3 : eatDigits1 ((a0 :: at0) ++ (' ' :: '+' :: ' ' :: (c0 :: ct0))) =
      some (a0 :: at0, ' ' :: '+' :: ' ' :: (c0 :: ct0)) :=
    eatDigits1_build h1 h1d (headNot_cons (by decide))
  have e5 : eatDigits1 (c0 :: ct0) = some (c0 :: ct0, []) := by
    unfold eatDigits1
    rw [dSpan_all h2d]
    simp
  have s2 : wSkip (' ' :: '=' :: ' ' :: (a0 :: (at0 ++ ' ' :: '+' :: ' ' :: (c0 :: ct0)))) =
      '=' :: ' ' :: (a0 :: (at0 ++ ' ' :: '+' :: ' ' :: (c0 :: ct0))) := by
    rw [wSkip_space, wSkip_stop _ (by decide : jsWs '=' = false)]
  have s3 : wSkip (' ' :: a0 :: (at0 ++ ' ' :: '+' :: ' ' :: (c0 :: ct0))) =
      a0 :: (at0 ++ ' ' :: '+' :: ' ' :: (c0 :: ct0)) := by
    rw [wSkip_space, wSkip_stop _ ha0]
  have s4 : wSkip (' ' :: '+' :: ' ' :: (c0 :: ct0)) = '+' :: ' ' :: (c0 :: ct0) := by
    rw [wSkip_space, wSkip_stop _ (by decide : jsWs '+' = false)]
  have s5 : wSkip (' ' :: (c0 :: ct0)) = c0 :: ct0 := by
    rw [wSkip_space, wSkip_stop _ hc0]
  have e2 : eatCh '=' ('=' :: ' ' :: (a0 :: (at0 ++ ' ' :: '+' :: ' ' :: (c0 :: ct0)))) =
      some (' ' :: (a0 :: (at0 ++ ' ' :: '+' :: ' ' :: (c0 :: ct0)))) := by
    simp [eatCh]
  have e4 : eatCh '+' ('+' :: ' ' :: (c0 :: ct0)) = some (' ' :: (c0 :: ct0)) := by
    simp [eatCh]
  simp only [List.cons_append] at hd1 e3 ⊢
  simp only [signMatch, hd1, optX_space, s2, e2, Option.some_bind, s3, e3, s4, e4, s5, e5]
  simp

/-! ## Claim theorems on the heuristic validator and the fallback scorer -/

/-- The three-step, two-correct solution of the score-fallback claim. -/
def demoSolution : SolutionData :=
  ⟨"2x + 3 = 11", [⟨1, "2x = 8", true, ""⟩, ⟨2, "x = 4", true, ""⟩, ⟨3, "x = 5", false, ""⟩]⟩

/-- C3: on Completion failure the fallback score is `round(correct/total*100)`,
with a +10 bonus capped at 100 exactly when the accuracy is 100; for 3 steps
with 2 correct the score lies in [60, 70]. -/
theorem fallback_score_formula_and_band :
    (∀ sol : SolutionData, (fallbackSolutionEvaluation sol).score =
      if solAccuracy sol = 100 then min 100 (jsRound (solAccuracy sol) + 10)
      else jsRound (solAccuracy sol)) ∧
    (60 ≤ (fallbackSolutionEvaluation demoSolution).score ∧
      (fallbackSolutionEvaluation demoSolution).score ≤ 70) := by
  have hacc : solAccuracy demoSolution = 200 / 3 := by
    simp only [solAccuracy, demoSolution, List.filter, List.length]
    norm_num
  have hne : solAccuracy demoSolution ≠ 100 := by
    rw [hacc]
    norm_num
  have hfl : (⌊(200 : Rat) / 3 + 1 / 2⌋ : Int) = 67 := by
    rw [Int.floor_eq_iff]
    norm_num
  have h : (fallbackSolutionEvaluation demoSolution).score = 67 := by
    have hs : (fallbackSolutionEvaluation demoSolution).score =
        if solAccuracy demoSolution = 100 then min 100 (jsRound (solAccuracy demoSolution) + 10)
        else jsRound (solAccuracy demoSolution) := rfl
    rw [hs, if_neg hne, hacc]
    unfold jsRound
    rw [hfl]
    norm_num
  refine ⟨fun sol => rfl, ?_, ?_⟩
  · rw [h]
    norm_num
  · rw [h]
    norm_num

/-- C4: a step of the shape `<num> + <num> = <num>` or `<num> - <num> = <num>`
whose stated result is wrong is flagged incorrect by the heuristic validator
with the recomputed value shown; in particular `5 + 3 = 9` is rejected with
the text naming 8 (the explanatory sentence lives in the `feedback` string).

The first conjunct is the behavioural rule for every string the arithmetic
regex accepts, the second shows the regex accepts every canonically spaced
string of that shape, the third is the concrete example. -/
theorem arith_mistake_flagged :
    (∀ (r : Nat) (s : String) (a : List Char) (op : Char) (b res : List Char),
      arithMatch (jsTrim s.data) = some (a, op, b, res) →
      (if op = '+' then (digitsToNat a : Int) + digitsToNat b
        else (digitsToNat a : Int) - digitsToNat b) ≠ (digitsToNat res : Int) →
      fallbackValidation r s = ⟨false,
        "❌ Arithmetic error: " ++ String.mk a ++ " " ++ String.mk [op] ++ " " ++
          String.mk b ++ " = " ++
          toString (if op = '+' then (digitsToNat a : Int) + digitsToNat b
            else (digitsToNat a : Int) - digitsToNat b) ++ ", not " ++ String.mk res,
        none, 0.95⟩) ∧
    (∀ (a b res : List Char) (op : Char), a ≠ [] → (∀ c ∈ a, c.isDigit = true) →
      b ≠ [] → (∀ c ∈ b, c.isDigit = true) → res ≠ [] → (∀ c ∈ res, c.isDigit = true) →
      (op = '+' || op = '-') = true →
      arithMatch (a ++ ' ' :: op :: ' ' :: (b ++ ' ' :: '=' :: ' ' :: res)) =
        some (a, op, b, res)) ∧
    (∀ r : Nat, fallbackValidation r "5 + 3 = 9" =
      ⟨false, "❌ Arithmetic error: 5 + 3 = 8, not 9", none, 0.95⟩) := by
  refine ⟨?_, fun a b res op h1 h2 h3 h4 h5 h6 h7 => arithMatch_build h1 h2 h3 h4 h5 h6 h7,
    fun r => rfl⟩
  intro r s a op b res hm hne
  have hcm : checkForCommonMistakes (jsTrim s.data) = some ⟨false,
      "❌ Arithmetic error: " ++ String.mk a ++ " " ++ String.mk [op] ++ " " ++
        String.mk b ++ " = " ++
        toString (if op = '+' then (digitsToNat a : Int) + digitsToNat b
          else (digitsToNat a : Int) - digitsToNat b) ++ ", not " ++ String.mk res,
      none, 0.95⟩ := by
    unfold checkForCommonMistakes
    simp only [jsTrim_idem, signMatch_none_of_arith hm, hm]
    rw [if_pos hne]
  simp only [fallbackValidation, hcm]

/-- Witness for the arithmetic-mistake claim: the behavioural rule applied to
the concrete step `5 + 3 = 9`. -/
theorem arith_mistake_flagged_witness :
    fallbackValidation 0 "5 + 3 = 9" =
      ⟨false, "❌ Arithmetic error: 5 + 3 = 8, not 9", none, 0.95⟩ := by
  have h := arith_mistake_flagged.1 0 "5 + 3 = 9" (lstr "5") '+' (lstr "3") (lstr "9")
    (by decide) (by decide)
  exact h.trans rfl

/-- C5: the mistake detectors run before the known-good-shape and generic
acceptance rules — whatever `checkForCommonMistakes` reports is the final
verdict of `fallbackValidation` — and `2x = 11 + 3` is flagged by the
sign-error detector with the sign-flip explanation even though it also
matches the known-good move-term shape of `getStepSpecificFeedback`. -/
theorem mistake_detectors_first :
    (∀ (r : Nat) (s : String) (mr : StepValidationResult),
      checkForCommonMistakes (jsTrim s.data) = some mr → fallbackValidation r s = mr) ∧
    (∀ r : Nat, fallbackValidation r "2x = 11 + 3" =
      ⟨false, "🤔 Check signs: when moving 3, it should become -3",
        some "When moving a positive term across the equals sign, it becomes negative.",
        0.85⟩) ∧
    patMoveTerm (jsTrim (lstr "2x = 11 + 3")) = true := by
  refine ⟨?_, fun r => rfl, by decide⟩
  intro r s mr h
  simp only [fallbackValidation, h]

/-- Witness for the detector-priority claim: applied to `2x = 11 + 3`. -/
theorem mistake_detectors_first_witness :
    fallbackValidation 5 "2x = 11 + 3" =
      ⟨false, "🤔 Check signs: when moving 3, it should become -3",
        some "When moving a positive term across the equals sign, it becomes negative.",
        0.85⟩ :=
  mistake_detectors_first.1 5 "2x = 11 + 3" _ rfl

/-- C6: the self-equality verification step `11 = 11` is accepted with
confidence at least 0.9 (the branch constant is 0.95), for every outcome of
the wording randomness. -/
theorem verification_step_accepted :
    ∀ r : Nat, (fallbackValidation r "11 = 11").isCorrect = true ∧
      (9 : Rat) / 10 ≤ (fallbackValidation r "11 = 11").confidence := by
  intro r
  refine ⟨rfl, ?_⟩
  have h : (fallbackValidation r "11 = 11").confidence = 0.95 := rfl
  rw [h]
  norm_num

/-- C10: every string the sign-error regex accepts — the variable is optional,
so this includes every `<num> = <num> + <num>` — is flagged incorrect with the
sign-flip wording, before any arithmetic recomputation could accept it; in
particular the arithmetically true `14 = 11 + 3` is flagged. -/
theorem sign_detector_overmatch :
    (∀ (r : Nat) (s : String) (g n1 n2 : List Char),
      signMatch (jsTrim s.data) = some (g, n1, n2) →
      fallbackValidation r s = ⟨false,
        "🤔 Check signs: when moving " ++ String.mk n2 ++ ", it should become -" ++
          String.mk n2,
        some "When moving a positive term across the equals sign, it becomes negative.",
        0.85⟩) ∧
    (∀ n0 n1 n2 : List Char, n0 ≠ [] → (∀ c ∈ n0, c.isDigit = true) →
      n1 ≠ [] → (∀ c ∈ n1, c.isDigit = true) → n2 ≠ [] → (∀ c ∈ n2, c.isDigit = true) →
      signMatch (n0 ++ ' ' :: '=' :: ' ' :: (n1 ++ ' ' :: '+' :: ' ' :: n2)) =
        some (n0, n1, n2)) ∧
    (∀ r : Nat, fallbackValidation r "14 = 11 + 3" =
      ⟨false, "🤔 Check signs: when moving 3, it should become -3",
        some "When moving a positive term across the equals sign, it becomes negative.",
        0.85⟩) ∧
    digitsToNat (lstr "11") + digitsToNat (lstr "3") = digitsToNat (lstr "14") := by
  refine ⟨?_, fun n0 n1 n2 h1 h2 h3 h4 h5 h6 => signMatch_build h1 h2 h3 h4 h5 h6,
    fun r => rfl, by decide⟩
  intro r s g n1 n2 hm
  have hcm : checkForCommonMistakes (jsTrim s.data) = some ⟨false,
      "🤔 Check signs: when moving " ++ String.mk n2 ++ ", it should become -" ++
        String.mk n2,
      some "When moving a positive term across the equals sign, it becomes negative.",
      0.85⟩ := by
    unfold checkForCommonMistakes
    simp only [jsTrim_idem, hm]
  simp only [fallbackValidation, hcm]

/-- Witness for the sign-detector claim: applied to `14 = 11 + 3`. -/
theorem sign_detector_overmatch_witness :
    fallbackValidation 2 "14 = 11 + 3" =
      ⟨false, "🤔 Check signs: when moving 3, it should become -3",
        some "When moving a positive term across the equals sign, it becomes negative.",
        0.85⟩ := by
  have h := sign_detector_overmatch.1 2 "14 = 11 + 3" (lstr "14") (lstr "11") (lstr "3")
    (by decide)
  exact h.trans rfl

/-! ## Determinism of the heuristic validator (randomness only affects wording) -/

theorem pickFb_mem (pool : List String) (hne : pool ≠ []) (r : Nat) :
    pickFb pool r ∈ pool := by
  unfold pickFb
  have hlen : 0 < pool.length := List.length_pos.mpr hne
  have hlt : r % pool.length < pool.length := Nat.mod_lt _ hlen
  rw [List.getD_eq_getElem?_getD, List.getElem?_eq_getElem hlt]
  exact List.getElem_mem hlt

/-- The wording pool of the `getStepSpecificFeedback` branch a step matches
(singleton pools for the branches with fixed wording). -/
def gssfPool (step : List Char) : List String :=
  let trimmed := jsTrim step
  if patXEq trimmed then poolXSolved
  else if patNxEq trimmed then poolNxEq
  else if patMoveTerm trimmed then poolMoveTerm
  else
    match arithMatch trimmed with
    | some (a, op, b, res) =>
      let expected : Int := if op = '+' then (digitsToNat a : Int) + digitsToNat b
        else (digitsToNat a : Int) - digitsToNat b
      if expected = (digitsToNat res : Int) then poolArith
      else ["🤔 Check: " ++ String.mk a ++ " " ++ String.mk [op] ++ " " ++ String.mk b ++
        " = " ++ toString expected]
    | none =>
      if patDivStart trimmed || containsSub (lstr "\\frac") trimmed then poolDivision
      else if patVerify trimmed then poolVerify
      else if patSubstCheck trimmed then poolSubst
      else poolDefault

/-- The wording pool of the `fallbackValidation` rule a step matches. -/
def fallbackPool (latex : String) : List String :=
  let trimmed := jsTrim latex.data
  match checkForCommonMistakes trimmed with
  | some res => [res.feedback]
  | none =>
    let hasEquals := trimmed.contains '='
    let hasNumbers := trimmed.any Char.isDigit
    let hasVariables := trimmed.any isAlpha
    let hasBasicOperations := trimmed.any fun c =>
      c = '+' || c = '-' || c = '*' || c = '/' || c = '^' || c = '(' || c = ')'
    let hasFractions := containsSub (lstr "\\frac") trimmed || trimmed.contains '/'
    let hasSquareRoot := containsSub (lstr "\\sqrt") trimmed || trimmed.contains '√'
    if isValidAlgebraStep trimmed then gssfPool trimmed
    else if hasEquals && (hasNumbers || hasVariables) then ["✅ Valid equation!"]
    else if (hasNumbers || hasVariables || hasFractions || hasSquareRoot) &&
        !trimmed.isEmpty then ["✅ Valid expression!"]
    else if hasBasicOperations || hasNumbers || hasVariables then ["👍 Good step!"]
    else ["🤔 Write a complete equation."]

theorem gssf_deterministic (t : List Char) (r1 r2 : Nat) :
    (getStepSpecificFeedback r1 t).isCorrect = (getStepSpecificFeedback r2 t).isCorrect ∧
    (getStepSpecificFeedback r1 t).confidence = (getStepSpecificFeedback r2 t).confidence ∧
    (getStepSpecificFeedback r1 t).feedback ∈ gssfPool t := by
  simp only [getStepSpecificFeedback, gssfPool]
  rcases harith : arithMatch (jsTrim t) with - | ⟨a, op, b, res⟩ <;>
    simp only [harith] <;> split_ifs <;>
    exact ⟨by first | rfl | trivial, by first | rfl | trivial, by first
      | exact pickFb_mem _ (by simp [poolXSolved, poolNxEq, poolMoveTerm, poolArith,
          poolDivision, poolVerify, poolSubst, poolDefault]) _
      | exact List.mem_singleton.mpr rfl
      | trivial⟩

/-- C7: the heuristic validator is deterministic in verdict and confidence —
two runs with different randomness agree on `isCorrect` and `confidence` —
and the feedback always belongs to the matched rule category's fixed pool of
strings. -/
theorem heuristic_validator_deterministic (s : String) (r1 r2 : Nat) :
    (fallbackValidation r1 s).isCorrect = (fallbackValidation r2 s).isCorrect ∧
    (fallbackValidation r1 s).confidence = (fallbackValidation r2 s).confidence ∧
    (fallbackValidation r1 s).feedback ∈ fallbackPool s := by
  rcases hcm : checkForCommonMistakes (jsTrim s.data) with - | mr <;>
    simp only [fallbackValidation, fallbackPool, hcm]
  · split_ifs
    · exact gssf_deterministic (jsTrim s.data) r1 r2
    all_goals exact ⟨by first | rfl | trivial, by first | rfl | trivial,
      by first | exact List.mem_singleton.mpr rfl | trivial⟩
  · exact ⟨by first | rfl | trivial, by first | rfl | trivial,
      by first | exact List.mem_singleton.mpr rfl | trivial⟩

/-! ## JSON values

`JSON.parse` / `JSON.stringify` are modelled over an exact JSON value type.
Numbers are exact decimals (mantissa and number of fraction digits — binary
floating point, exponent notation and lone-surrogate strings are outside the
modelled subset). Lists and objects are mutual inductives so that every
function below is structurally recursive and evaluates in the kernel. -/

mutual

inductive JVal where
  | null
  | bool (b : Bool)
  | num (m : Int) (e : Nat)
  | str (s : List Char)
  | arr (elems : JList)
  | obj (fields : JFields)
deriving DecidableEq, Repr

inductive JList where
  | nil
  | cons (v : JVal) (tail : JList)
deriving DecidableEq, Repr

inductive JFields where
  | fnil
  | fcons (key : List Char) (v : JVal) (tail : JFields)
deriving DecidableEq, Repr

end

/-- Lowercase hex digit, as `JSON.stringify` emits in `\u00xx` escapes. -/
def hexDigit (n : Nat) : Char := Nat.digitChar n

/-- The escaping `JSON.stringify` applies to one string character. -/
def escChar (c : Char) : List Char :=
  if c = '"' then ['\\', '"']
  else if c = '\\' then ['\\', '\\']
  else if c = '\n' then ['\\', 'n']
  else if c = '\t' then ['\\', 't']
  else if c = '\r' then ['\\', 'r']
  else if c = '\x08' then ['\\', 'b']
  else if c = '\x0c' then ['\\', 'f']
  else if c.toNat < 0x20 then
    ['\\', 'u', '0', '0', hexDigit (c.toNat / 16), hexDigit (c.toNat % 16)]
  else [c]

/-- Escaped body of a serialized string. -/
def escStr : List Char → List Char
  | [] => []
  | c :: r => escChar c ++ escStr r

/-- A serialized string: quote, escaped body, quote. -/
def serStr (s : List Char) : List Char := '"' :: (escStr s ++ ['"'])

/-- Unsigned body of a serialized decimal number: integral digits, and when
`e > 0` a point with exactly `e` fraction digits. -/
def serNumBody (n : Nat) (e : Nat) : List Char :=
  let ds := natDigits n
  if e = 0 then ds
  else if ds.length ≤ e then '0' :: '.' :: (List.replicate (e - ds.length) '0' ++ ds)
  else ds.take (ds.length - e) ++ '.' :: ds.drop (ds.length - e)

/-- A serialized decimal number: optional sign then the unsigned body. -/
def serNum (m : Int) (e : Nat) : List Char :=
  if m < 0 then '-' :: serNumBody m.natAbs e else serNumBody m.natAbs e

mutual

/-- `JSON.stringify` (compact form, no spacing). -/
def ser : JVal → List Char
  | .null => lstr "null"
  | .bool true => lstr "true"
  | .bool false => lstr "false"
  | .num m e => serNum m e
  | .str s => serStr s
  | .arr l => '[' :: (serItems l ++ [']'])
  | .obj fs => '\x7b' :: (serFields fs ++ ['\x7d'])

def serItems : JList → List Char
  | .nil => []
  | .cons v .nil => ser v
  | .cons v (.cons w tail) => ser v ++ ',' :: serItems (.cons w tail)

def serFields : JFields → List Char
  | .fnil => []
  | .fcons k v .fnil => serStr k ++ ':' :: ser v
  | .fcons k v (.fcons k2 w tail) => serStr k ++ ':' :: ser v ++ ',' :: serFields (.fcons k2 w tail)

end

mutual

/-- Fuel footprint of parsing a value. -/
def jsize : JVal → Nat
  | .null => 1
  | .bool _ => 1
  | .num _ _ => 1
  | .str _ => 1
  | .arr l => 1 + jsizeL l
  | .obj fs => 1 + jsizeF fs

def jsizeL : JList → Nat
  | .nil => 0
  | .cons v tail => 1 + jsize v + jsizeL tail

def jsizeF : JFields → Nat
  | .fnil => 0
  | .fcons _ v tail => 1 + jsize v + jsizeF tail

end

/-- JSON whitespace (the four characters `JSON.parse` skips). -/
def jsonWs (c : Char) : Bool := c = ' ' || c = '\t' || c = '\n' || c = '\r'

/-- Skip JSON whitespace. -/
def jSkip (l : List Char) : List Char := l.dropWhile jsonWs

/-- Hex digit value for `\uXXXX` escapes. -/
def parseHex (c : Char) : Option Nat :=
  if c.isDigit then some (digitVal c)
  else if 'a' ≤ c && c ≤ 'f' then some (c.toNat - 87)
  else if 'A' ≤ c && c ≤ 'F' then some (c.toNat - 55)
  else none

/-- Strict JSON string-body parser (after the opening quote): returns the
decoded characters and the input after the closing quote. Unescaped control
characters are rejected, as `JSON.parse` does; surrogate escapes are rejected
(Lean characters are Unicode scalars). -/
def parseJStr : List Char → Option (List Char × List Char)
  | [] => none
  | c :: r =>
    if c = '"' then some ([], r)
    else if c = '\\' then
      match r with
      | [] => none
      | e :: r2 =>
        if e = '"' then (parseJStr r2).map fun p => ('"' :: p.1, p.2)
        else if e = '\\' then (parseJStr r2).map fun p => ('\\' :: p.1, p.2)
        else if e = '/' then (parseJStr r2).map fun p => ('/' :: p.1, p.2)
        else if e = 'b' then (parseJStr r2).map fun p => ('\x08' :: p.1, p.2)
        else if e = 'f' then (parseJStr r2).map fun p => ('\x0c' :: p.1, p.2)
        else if e = 'n' then (parseJStr r2).map fun p => ('\n' :: p.1, p.2)
        else if e = 'r' then (parseJStr r2).map fun p => ('\r' :: p.1, p.2)
        else if e = 't' then (parseJStr r2).map fun p => ('\t' :: p.1, p.2)
        else if e = 'u' then
          match r2 with
          | h1 :: h2 :: h3 :: h4 :: r3 =>
            match parseHex h1, parseHex h2, parseHex h3, parseHex h4 with
            | some x1, some x2, some x3, some x4 =>
              let n := ((x1 * 16 + x2) * 16 + x3) * 16 + x4
              if 0xD800 ≤ n && n < 0xE000 then none
              else (parseJStr r3).map fun p => (Char.ofNat n :: p.1, p.2)
            | _, _, _, _ => none
          | _ => none
        else none
    else if c.toNat < 0x20 then none
    else (parseJStr r).map fun p => (c :: p.1, p.2)

/-- Build the numeric value from sign, all digits read, and fraction length. -/
def mkNum (neg : Bool) (ds : List Char) (e : Nat) : JVal :=
  .num (if neg then -(digitsToNat ds : Int) else (digitsToNat ds : Int)) e

/-- After the integral digits: an optional fraction part. -/
def parseFrac (neg : Bool) (intDs : List Char) (l : List Char) : Option (JVal × List Char) :=
  match l with
  | c :: r =>
    if c = '.' then
      if (dSpan r).1.isEmpty then none
      else some (mkNum neg (intDs ++ (dSpan r).1) (dSpan r).1.length, (dSpan r).2)
    else some (mkNum neg intDs 0, c :: r)
  | [] => some (mkNum neg intDs 0, [])

/-- Unsigned JSON number: `0` or a nonzero-led digit run, then a fraction. -/
def parseNumAbs (neg : Bool) (l : List Char) : Option (JVal × List Char) :=
  match l with
  | [] => none
  | c :: r =>
    if c = '0' then parseFrac neg ['0'] r
    else if c.isDigit then parseFrac neg (dSpan (c :: r)).1 (dSpan (c :: r)).2
    else none

/-- Strict JSON number parser (exponent notation not in the modelled subset). -/
def parseJNum (l : List Char) : Option (JVal × List Char) :=
  match l with
  | [] => none
  | c :: r => if c = '-' then parseNumAbs true r else parseNumAbs false (c :: r)

mutual

/-- Fuelled strict JSON value parser (the model of `JSON.parse`). -/
def parseVal : Nat → List Char → Option (JVal × List Char)
  | 0, _ => none
  | f + 1, l =>
    match jSkip l with
    | [] => none
    | c :: r =>
      if c = 'n' then (if (lstr "ull").isPrefixOf r then some (.null, r.drop 3) else none)
      else if c = 't' then (if (lstr "rue").isPrefixOf r then some (.bool true, r.drop 3) else none)
      else if c = 'f' then (if (lstr "alse").isPrefixOf r then some (.bool false, r.drop 4) else none)
      else if c = '"' then (parseJStr r).map fun p => (.str p.1, p.2)
      else if c = '[' then
        match jSkip r with
        | [] => none
        | c2 :: r2 =>
          if c2 = ']' then some (.arr .nil, r2)
          else (parseItems f (c2 :: r2)).map fun p => (.arr p.1, p.2)
      else if c = '\x7b' then
        match jSkip r with
        | [] => none
        | c2 :: r2 =>
          if c2 = '\x7d' then some (.obj .fnil, r2)
          else (parseFields f (c2 :: r2)).map fun p => (.obj p.1, p.2)
      else if c = '-' || c.isDigit then parseJNum (c :: r)
      else none

/-- Comma-separated values up to the closing bracket (consumed). -/
def parseItems : Nat → List Char → Option (JList × List Char)
  | 0, _ => none
  | f + 1, l =>
    (parseVal f l).bind fun p =>
    match jSkip p.2 with
    | [] => none
    | c :: r =>
      if c = ',' then (parseItems f r).map fun q => (.cons p.1 q.1, q.2)
      else if c = ']' then some (.cons p.1 .nil, r)
      else none

/-- Comma-separated `"key": value` pairs up to the closing brace (consumed). -/
def parseFields : Nat → List Char → Option (JFields × List Char)
  | 0, _ => none
  | f + 1, l =>
    match jSkip l with
    | [] => none
    | c :: r =>
      if c = '"' then
        (parseJStr r).bind fun pk =>
        match jSkip pk.2 with
        | [] => none
        | c2 :: r2 =>
          if c2 = ':' then
            (parseVal f r2).bind fun pv =>
            match jSkip pv.2 with
            | [] => none
            | c3 :: r3 =>
              if c3 = ',' then (parseFields f r3).map fun q => (.fcons pk.1 pv.1 q.1, q.2)
              else if c3 = '\x7d' then some (.fcons pk.1 pv.1 .fnil, r3)
              else none
          else none
      else none

end

/-- The model of `JSON.parse`: parse one value, allow trailing whitespace
only. The fuel `length + 1` always suffices (`jsize_le_ser_length`). -/
def jsonParse (l : List Char) : Option JVal :=
  (parseVal (l.length + 1) l).bind fun p =>
  if (jSkip p.2).isEmpty then some p.1 else none

/-! ## Round trip: serialized strings parse back -/

theorem parseHex_hexDigit {d : Nat} (h : d < 16) : parseHex (hexDigit d) = some d := by
  interval_cases d <;> decide

theorem parseJStr_quote (l : List Char) : parseJStr ('"' :: l) = some ([], l) := by
  rw [parseJStr.eq_def]
  simp

theorem parseJStr_plain {c : Char} (l : List Char) (h1 : ¬ c = '"') (h2 : ¬ c = '\\')
    (h3 : ¬ c.toNat < 0x20) :
    parseJStr (c :: l) = (parseJStr l).map fun p => (c :: p.1, p.2) := by
  rw [parseJStr.eq_def]
  simp [h1, h2, h3]

theorem parseJStr_escQuote (l : List Char) :
    parseJStr ('\\' :: '"' :: l) = (parseJStr l).map fun p => ('"' :: p.1, p.2) := by
  rw [parseJStr.eq_def]
  simp

theorem parseJStr_escBack (l : List Char) :
    parseJStr ('\\' :: '\\' :: l) = (parseJStr l).map fun p => ('\\' :: p.1, p.2) := by
  rw [parseJStr.eq_def]
  simp

theorem parseJStr_escN (l : List Char) :
    parseJStr ('\\' :: 'n' :: l) = (parseJStr l).map fun p => ('\n' :: p.1, p.2) := by
  rw [parseJStr.eq_def]
  simp

theorem parseJStr_escT (l : List Char) :
    parseJStr ('\\' :: 't' :: l) = (parseJStr l).map fun p => ('\t' :: p.1, p.2) := by
  rw [parseJStr.eq_def]
  simp

theorem parseJStr_escR (l : List Char) :
    parseJStr ('\\' :: 'r' :: l) = (parseJStr l).map fun p => ('\r' :: p.1, p.2) := by
  rw [parseJStr.eq_def]
  simp

theorem parseJStr_escB (l : List Char) :
    parseJStr ('\\' :: 'b' :: l) = (parseJStr l).map fun p => ('\x08' :: p.1, p.2) := by
  rw [parseJStr.eq_def]
  simp

theorem parseJStr_escF (l : List Char) :
    parseJStr ('\\' :: 'f' :: l) = (parseJStr l).map fun p => ('\x0c' :: p.1, p.2) := by
  rw [parseJStr.eq_def]
  simp

theorem parseJStr_escU {c : Char} (l : List Char) (h : c.toNat < 0x20) :
    parseJStr ('\\' :: 'u' :: '0' :: '0' :: hexDigit (c.toNat / 16) ::
        hexDigit (c.toNat % 16) :: l) =
      (parseJStr l).map fun p => (c :: p.1, p.2) := by
  have hhi : parseHex (hexDigit (c.toNat / 16)) = some (c.toNat / 16) :=
    parseHex_hexDigit (by omega)
  have hlo : parseHex (hexDigit (c.toNat % 16)) = some (c.toNat % 16) :=
    parseHex_hexDigit (by omega)
  have hn : ((0 * 16 + 0) * 16 + c.toNat / 16) * 16 + c.toNat % 16 = c.toNat := by omega
  have h0 : parseHex '0' = some 0 := by decide
  have hn2 : c.toNat / 16 * 16 + c.toNat % 16 = c.toNat := by omega
  have hsur : ¬ (55296 ≤ c.toNat ∧ c.toNat < 57344) := by omega
  rw [parseJStr.eq_def]
  simp [h0, hhi, hlo, hn, hn2, Char.ofNat_toNat, hsur]

theorem parseJStr_escStr (s rest : List Char) :
    parseJStr (escStr s ++ '"' :: rest) = some (s, rest) := by
  induction s with
  | nil => simpa using parseJStr_quote rest
  | cons c s' ih =>
    show parseJStr ((escChar c ++ escStr s') ++ '"' :: rest) = some (c :: s', rest)
    rw [List.append_assoc]
    unfold escChar
    split_ifs with h1 h2 h3 h4 h5 h6 h7 h8
    · subst h1
      simp only [List.cons_append, List.nil_append]
      rw [parseJStr_escQuote, ih]
      rfl
    · subst h2
      simp only [List.cons_append, List.nil_append]
      rw [parseJStr_escBack, ih]
      rfl
    · subst h3
      simp only [List.cons_append, List.nil_append]
      rw [parseJStr_escN, ih]
      rfl
    · subst h4
      simp only [List.cons_append, List.nil_append]
      rw [parseJStr_escT, ih]
      rfl
    · subst h5
      simp only [List.cons_append, List.nil_append]
      rw [parseJStr_escR, ih]
      rfl
    · subst h6
      simp only [List.cons_append, List.nil_append]
      rw [parseJStr_escB, ih]
      rfl
    · subst h7
      simp only [List.cons_append, List.nil_append]
      rw [parseJStr_escF, ih]
      rfl
    · simp only [List.cons_append, List.nil_append]
      rw [parseJStr_escU _ h8, ih]
      rfl
    · simp only [List.cons_append, List.nil_append]
      rw [parseJStr_plain _ h1 h2 (by omega), ih]
      rfl

/-- A whole serialized string parses back: quote, body, quote. -/
theorem parseJStr_serStr (s rest : List Char) :
    (serStr s ++ rest).tail = escStr s ++ '"' :: rest ∧
      parseJStr (escStr s ++ '"' :: rest) = some (s, rest) := by
  constructor
  · simp [serStr]
  · exact parseJStr_escStr s rest

/-! ## Round trip: serialized numbers parse back -/

/-- The character after a serialized number must not extend it. -/
def numDelim : List Char → Prop
  | [] => True
  | c :: _ => c.isDigit = false ∧ c ≠ '.'

theorem natDigits_cons (n : Nat) :
    ∃ d ds, natDigits n = d :: ds ∧ d.isDigit = true := by
  cases h : natDigits n with
  | nil => exact absurd h (natDigits_ne_nil n)
  | cons d ds =>
    exact ⟨d, ds, rfl, natDigits_all_digit n d (h ▸ List.mem_cons_self d ds)⟩

theorem natDigits_head_ne_zero {n : Nat} (hn : 1 ≤ n) {d : Char} {ds : List Char}
    (h : natDigits n = d :: ds) : d ≠ '0' := by
  induction n using Nat.strong_induction_on generalizing d ds with
  | _ n ih =>
    by_cases h10 : n < 10
    · rw [natDigits_lt10 h10] at h
      cases h
      interval_cases n <;> simp_all <;> decide
    · rw [natDigits_ge10 h10] at h
      obtain ⟨d2, ds2, hds2, -⟩ := natDigits_cons (n / 10)
      rw [hds2] at h
      simp only [List.cons_append, List.cons.injEq] at h
      exact h.1 ▸ ih (n / 10) (Nat.div_lt_self (by omega) (by omega)) (by omega) hds2

theorem digitsToNat_zeros_prefix (k : Nat) (ds : List Char) :
    digitsToNat (List.replicate k '0' ++ ds) = digitsToNat ds := by
  induction k with
  | zero => simp
  | succ k ih =>
    rw [List.replicate_succ, List.cons_append]
    show List.foldl _ (10 * 0 + digitVal '0') _ = _
    have : 10 * 0 + digitVal '0' = 0 := by decide
    rw [this]
    exact ih

theorem replicate_zero_digits (k : Nat) : ∀ c ∈ List.replicate k '0', c.isDigit = true := by
  intro c hc
  rw [List.eq_of_mem_replicate hc]
  decide

theorem numDelim_headNot {rest : List Char} (h : numDelim rest) :
    headNot Char.isDigit rest := by
  cases rest with
  | nil => exact headNot_nil _
  | cons c r => exact headNot_cons h.1

theorem parseFrac_intOnly (neg : Bool) (intDs : List Char) {rest : List Char}
    (h : numDelim rest) : parseFrac neg intDs rest = some (mkNum neg intDs 0, rest) := by
  cases rest with
  | nil => rw [parseFrac.eq_def]
  | cons c r =>
    rw [parseFrac.eq_def]
    simp [if_neg h.2]

theorem parseFrac_frac (neg : Bool) (intDs fracDs : List Char) {rest : List Char}
    (hne : fracDs ≠ []) (hdig : ∀ c ∈ fracDs, c.isDigit = true) (h : numDelim rest) :
    parseFrac neg intDs ('.' :: (fracDs ++ rest)) =
      some (mkNum neg (intDs ++ fracDs) fracDs.length, rest) := by
  have hspan : dSpan (fracDs ++ rest) = (fracDs, rest) :=
    dSpan_append_stop hdig (numDelim_headNot h)
  rw [parseFrac.eq_def]
  simp [hspan, isEmpty_false_of_ne_nil hne]

theorem serNumBody_e0 (n : Nat) : serNumBody n 0 = natDigits n := by
  simp [serNumBody]

theorem serNumBody_pad {n e : Nat} (he : e ≠ 0) (hlen : (natDigits n).length ≤ e) :
    serNumBody n e =
      '0' :: '.' :: (List.replicate (e - (natDigits n).length) '0' ++ natDigits n) := by
  simp [serNumBody, he, hlen]

theorem serNumBody_split {n e : Nat} (he : e ≠ 0) (hlen : ¬ (natDigits n).length ≤ e) :
    serNumBody n e = (natDigits n).take ((natDigits n).length - e) ++
      '.' :: (natDigits n).drop ((natDigits n).length - e) := by
  simp [serNumBody, he, hlen]

theorem parseNumAbs_zero (neg : Bool) (r : List Char) :
    parseNumAbs neg ('0' :: r) = parseFrac neg ['0'] r := by
  simp [parseNumAbs]

theorem parseNumAbs_digit {c : Char} (neg : Bool) (r : List Char) (h1 : ¬ c = '0')
    (h2 : c.isDigit = true) :
    parseNumAbs neg (c :: r) =
      parseFrac neg ((c :: r).takeWhile Char.isDigit) ((c :: r).dropWhile Char.isDigit) := by
  simp [parseNumAbs, h1, h2, dSpan]

theorem parseNumAbs_body (neg : Bool) (n e : Nat) {rest : List Char} (hd : numDelim rest) :
    parseNumAbs neg (serNumBody n e ++ rest) =
      some (.num (if neg then -(n : Int) else (n : Int)) e, rest) := by
  obtain ⟨d0, ds0, hds0, hd0dig⟩ := natDigits_cons n
  by_cases he : e = 0
  · subst he
    rw [serNumBody_e0]
    by_cases hn : n = 0
    · subst hn
      rw [show natDigits 0 = ['0'] from by decide, List.singleton_append, parseNumAbs_zero,
        parseFrac_intOnly _ _ hd]
      have : digitsToNat ['0'] = 0 := by decide
      cases neg <;> simp [mkNum, this]
    · have hne0 : d0 ≠ '0' := natDigits_head_ne_zero (by omega) hds0
      rw [hds0, List.cons_append, parseNumAbs_digit neg _ hne0 hd0dig,
        ← List.cons_append, ← hds0,
        takeWhile_append_stop (natDigits_all_digit n) (numDelim_headNot hd),
        dropWhile_append_stop (natDigits_all_digit n) (numDelim_headNot hd),
        parseFrac_intOnly _ _ hd]
      simp [mkNum, digitsToNat_natDigits]
  · by_cases hlen : (natDigits n).length ≤ e
    · have hfd : ∀ c ∈ List.replicate (e - (natDigits n).length) '0' ++ natDigits n,
          c.isDigit = true := by
        intro c hc
        rcases List.mem_append.mp hc with hc | hc
        · exact replicate_zero_digits _ c hc
        · exact natDigits_all_digit n c hc
      have hfne : List.replicate (e - (natDigits n).length) '0' ++ natDigits n ≠ [] := by
        intro hcon
        exact natDigits_ne_nil n (List.append_eq_nil.mp hcon).2
      rw [serNumBody_pad he hlen, List.cons_append, List.cons_append, parseNumAbs_zero,
        parseFrac_frac _ _ _ hfne hfd hd]
      have hv : digitsToNat ('0' :: (List.replicate (e - (natDigits n).length) '0' ++
          natDigits n)) = n := by
        have heq : ('0' :: (List.replicate (e - (natDigits n).length) '0' ++
            natDigits n) : List Char) =
            List.replicate (e - (natDigits n).length + 1) '0' ++ natDigits n := by
          rw [List.replicate_succ]
          simp
        rw [heq, digitsToNat_zeros_prefix, digitsToNat_natDigits]
      have hl : (List.replicate (e - (natDigits n).length) '0' ++ natDigits n).length = e := by
        simp
        omega
      simp [mkNum, hv, hl]
    · have hn10 : 1 ≤ n := by
        by_contra hcon
        have hz : n = 0 := by omega
        subst hz
        rw [show natDigits 0 = ['0'] from by decide] at hlen
        simp at hlen
        omega
      have hne0 : d0 ≠ '0' := natDigits_head_ne_zero hn10 hds0
      have htake : (natDigits n).take ((natDigits n).length - e) =
          d0 :: ds0.take ((natDigits n).length - e - 1) := by
        have hlt : e < (natDigits n).length := by omega
        obtain ⟨k, hk⟩ : ∃ k, (natDigits n).length - e = k + 1 :=
          ⟨(natDigits n).length - e - 1, by omega⟩
        rw [hk]
        conv_lhs => rw [hds0]
        rw [List.take_succ_cons]
        simp
      have htdig : ∀ c ∈ (natDigits n).take ((natDigits n).length - e), c.isDigit = true :=
        fun c hc => natDigits_all_digit n c (List.take_subset _ _ hc)
      have hddig : ∀ c ∈ (natDigits n).drop ((natDigits n).length - e), c.isDigit = true :=
        fun c hc => natDigits_all_digit n c (List.drop_subset _ _ hc)
      have hdne : (natDigits n).drop ((natDigits n).length - e) ≠ [] := by
        intro hcon
        have hcl := congrArg List.length hcon
        simp only [List.length_drop, List.length_nil] at hcl
        omega
      rw [serNumBody_split he hlen, List.append_assoc, List.cons_append, htake,
        List.cons_append,
        parseNumAbs_digit neg _ hne0 (htdig d0 (htake ▸ List.mem_cons_self _ _)),
        ← List.cons_append, ← htake,
        takeWhile_append_stop htdig (headNot_cons (by decide)),
        dropWhile_append_stop htdig (headNot_cons (by decide)),
        parseFrac_frac _ _ _ hdne hddig hd]
      have hv : digitsToNat ((natDigits n).take ((natDigits n).length - e) ++
          (natDigits n).drop ((natDigits n).length - e)) = n := by
        rw [List.take_append_drop, digitsToNat_natDigits]
      have hl : ((natDigits n).drop ((natDigits n).length - e)).length = e := by
        simp only [List.length_drop]
        omega
      simp [mkNum, hv, hl, digitsToNat_natDigits]

theorem serNumBody_head (n e : Nat) :
    ∃ d t, serNumBody n e = d :: t ∧ d.isDigit = true := by
  obtain ⟨d0, ds0, hds0, hd0⟩ := natDigits_cons n
  by_cases he : e = 0
  · subst he
    exact ⟨d0, ds0, by rw [serNumBody_e0, hds0], hd0⟩
  · by_cases hlen : (natDigits n).length ≤ e
    · exact ⟨'0', _, serNumBody_pad he hlen, by decide⟩
    · have htake : (natDigits n).take ((natDigits n).length - e) =
          d0 :: ds0.take ((natDigits n).length - e - 1) := by
        have hlt : e < (natDigits n).length := by omega
        obtain ⟨k, hk⟩ : ∃ k, (natDigits n).length - e = k + 1 :=
          ⟨(natDigits n).length - e - 1, by omega⟩
        rw [hk]
        conv_lhs => rw [hds0]
        rw [List.take_succ_cons]
        simp
      exact ⟨d0, ds0.take ((natDigits n).length - e - 1) ++
        '.' :: (natDigits n).drop ((natDigits n).length - e),
        by rw [serNumBody_split he hlen, htake, List.cons_append], hd0⟩

theorem parseJNum_serNum (m : Int) (e : Nat) {rest : List Char} (hd : numDelim rest) :
    parseJNum (serNum m e ++ rest) = some (.num m e, rest) := by
  obtain ⟨d0, t0, hbody, hd0⟩ := serNumBody_head m.natAbs e
  by_cases hm : m < 0
  · have hmm2 : -(m.natAbs : Int) = m := by omega
    rw [show serNum m e = '-' :: serNumBody m.natAbs e from by simp [serNum, hm],
      List.cons_append]
    rw [show parseJNum ('-' :: (serNumBody m.natAbs e ++ rest)) =
      parseNumAbs true (serNumBody m.natAbs e ++ rest) from by simp [parseJNum]]
    rw [parseNumAbs_body true m.natAbs e hd]
    show some (JVal.num (-(m.natAbs : Int)) e, rest) = some (JVal.num m e, rest)
    rw [hmm2]
  · rw [show serNum m e = serNumBody m.natAbs e from by simp [serNum, hm], hbody,
      List.cons_append]
    have hne : ¬ d0 = '-' := by
      intro hcon
      rw [hcon] at hd0
      cases hd0
    rw [show parseJNum (d0 :: (t0 ++ rest)) = parseNumAbs false (d0 :: (t0 ++ rest)) from by
      simp [parseJNum, hne], ← List.cons_append, ← hbody,
      parseNumAbs_body false m.natAbs e hd]
    have hmm : (m.natAbs : Int) = m := by omega
    show some (JVal.num ((m.natAbs : Int)) e, rest) = some (JVal.num m e, rest)
    rw [hmm]

/-! ## Round trip: serialized values parse back -/

theorem jSkip_stop {c : Char} (l : List Char) (h : jsonWs c = false) :
    jSkip (c :: l) = c :: l :=
  List.dropWhile_cons_of_neg (by simp [h])

theorem isPrefixOf_append (l r : List Char) : l.isPrefixOf (l ++ r) = true := by
  rw [List.isPrefixOf_iff_prefix]
  exact List.prefix_append l r

theorem jsonWs_not_digit {c : Char} (h : jsonWs c = true) : c.isDigit = false := by
  simp only [jsonWs, Bool.or_eq_true, decide_eq_true_eq] at h
  rcases h with ((rfl | rfl) | rfl) | rfl <;> decide

theorem digit_not_jsonWs {c : Char} (h : c.isDigit = true) : jsonWs c = false := by
  cases hw : jsonWs c with
  | false => rfl
  | true => rw [jsonWs_not_digit hw] at h; cases h

theorem isDigit_char_facts {c : Char} (h : c.isDigit = true) :
    ¬ c = 'n' ∧ ¬ c = 't' ∧ ¬ c = 'f' ∧ ¬ c = '"' ∧ ¬ c = '[' ∧ ¬ c = '\x7b' ∧
      ¬ c = ']' ∧ ¬ c = '\x7d' ∧ ¬ c = '-' := by
  refine ⟨?_, ?_, ?_, ?_, ?_, ?_, ?_, ?_, ?_⟩ <;>
    (intro hc; subst hc; exact absurd h (by decide))

theorem jsize_pos (v : JVal) : 1 ≤ jsize v := by
  cases v <;> simp [jsize]

theorem jsizeL_pos {l : JList} (h : l ≠ .nil) : 1 ≤ jsizeL l := by
  cases l with
  | nil => exact absurd rfl h
  | cons v t => simp [jsizeL]; omega

theorem jsizeF_pos {fs : JFields} (h : fs ≠ .fnil) : 1 ≤ jsizeF fs := by
  cases fs with
  | fnil => exact absurd rfl h
  | fcons k v t => simp [jsizeF]; omega

theorem ser_head (v : JVal) :
    ∃ c t, ser v = c :: t ∧ jsonWs c = false ∧ ¬ c = ']' ∧ ¬ c = '\x7d' := by
  cases v with
  | null => exact ⟨'n', lstr "ull", by decide, by decide, by decide, by decide⟩
  | bool b =>
    cases b with
    | true => exact ⟨'t', lstr "rue", by decide, by decide, by decide, by decide⟩
    | false => exact ⟨'f', lstr "alse", by decide, by decide, by decide, by decide⟩
  | num m e =>
    obtain ⟨d, t, hb, hd⟩ := serNumBody_head m.natAbs e
    by_cases hm : m < 0
    · exact ⟨'-', serNumBody m.natAbs e, by simp [ser, serNum, hm], by decide, by decide,
        by decide⟩
    · refine ⟨d, t, by simp [ser, serNum, hm, hb], digit_not_jsonWs hd, ?_, ?_⟩
      · exact (isDigit_char_facts hd).2.2.2.2.2.2.1
      · exact (isDigit_char_facts hd).2.2.2.2.2.2.2.1
  | str s => exact ⟨'"', escStr s ++ ['"'], by simp [ser, serStr], by decide, by decide,
      by decide⟩
  | arr l => exact ⟨'[', serItems l ++ [']'], by simp [ser], by decide, by decide, by decide⟩
  | obj fs => exact ⟨'\x7b', serFields fs ++ ['\x7d'], by simp [ser], by decide, by decide,
      by decide⟩

theorem roundTrip (f : Nat) :
    (∀ (v : JVal) (rest : List Char), jsize v ≤ f → numDelim rest →
      parseVal f (ser v ++ rest) = some (v, rest)) ∧
    (∀ (l : JList) (rest : List Char), l ≠ .nil → jsizeL l ≤ f →
      parseItems f (serItems l ++ ']' :: rest) = some (l, rest)) ∧
    (∀ (fs : JFields) (rest : List Char), fs ≠ .fnil → jsizeF fs ≤ f →
      parseFields f (serFields fs ++ '\x7d' :: rest) = some (fs, rest)) := by
  induction f with
  | zero =>
    refine ⟨fun v rest h _ => absurd h (by have := jsize_pos v; omega),
      fun l rest hne h => absurd h (by have := jsizeL_pos hne; omega),
      fun fs rest hne h => absurd h (by have := jsizeF_pos hne; omega)⟩
  | succ f ih =>
    obtain ⟨ihV, ihL, ihF⟩ := ih
    refine ⟨?_, ?_, ?_⟩
    · intro v rest hsz hrest
      cases v with
      | null =>
        rw [show ser JVal.null = 'n' :: lstr "ull" from by decide, List.cons_append]
        simp only [parseVal]
        rw [jSkip_stop _ (by decide)]
        have hpre := isPrefixOf_append (lstr "ull") rest
        have hdrop : (lstr "ull" ++ rest).drop 3 = rest := List.drop_left' (by decide)
        simp [hpre, hdrop]
      | bool b =>
        cases b with
        | true =>
          rw [show ser (JVal.bool true) = 't' :: lstr "rue" from by decide, List.cons_append]
          simp only [parseVal]
          rw [jSkip_stop _ (by decide)]
          have hpre := isPrefixOf_append (lstr "rue") rest
          have hdrop : (lstr "rue" ++ rest).drop 3 = rest := List.drop_left' (by decide)
          simp [hpre, hdrop]
        | false =>
          rw [show ser (JVal.bool false) = 'f' :: lstr "alse" from by decide, List.cons_append]
          simp only [parseVal]
          rw [jSkip_stop _ (by decide)]
          have hpre := isPrefixOf_append (lstr "alse") rest
          have hdrop : (lstr "alse" ++ rest).drop 4 = rest := List.drop_left' (by decide)
          simp [hpre, hdrop]
      | num m e =>
        obtain ⟨d, t, hb, hdig⟩ := serNumBody_head m.natAbs e
        by_cases hm : m < 0
        · have hsn : serNum m e = '-' :: serNumBody m.natAbs e := by simp [serNum, hm]
          rw [show ser (JVal.num m e) = serNum m e from by simp [ser], hsn, List.cons_append]
          simp only [parseVal]
          rw [jSkip_stop _ (by decide)]
          have hfin : parseJNum ('-' :: (serNumBody m.natAbs e ++ rest)) =
              some (JVal.num m e, rest) := by
            rw [← List.cons_append, ← hsn]
            exact parseJNum_serNum m e hrest
          simp [hfin]
        · have hsn : serNum m e = serNumBody m.natAbs e := by simp [serNum, hm]
          obtain ⟨g1, g2, g3, g4, g5, g6, -, -, -⟩ := isDigit_char_facts hdig
          rw [show ser (JVal.num m e) = serNum m e from by simp [ser], hsn, hb,
            List.cons_append]
          simp only [parseVal]
          rw [jSkip_stop _ (digit_not_jsonWs hdig)]
          have hfin : parseJNum (d :: (t ++ rest)) = some (JVal.num m e, rest) := by
            rw [← List.cons_append, ← hb, ← hsn]
            exact parseJNum_serNum m e hrest
          simp [g1, g2, g3, g4, g5, g6, hdig, hfin]
      | str s =>
        rw [show ser (JVal.str s) = '"' :: (escStr s ++ ['"']) from by simp [ser, serStr],
          List.cons_append]
        simp only [parseVal]
        rw [jSkip_stop _ (by decide)]
        have heq : (escStr s ++ ['"']) ++ rest = escStr s ++ '"' :: rest := by simp
        simp [heq, parseJStr_escStr]
      | arr l =>
        cases l with
        | nil =>
          rw [show ser (JVal.arr JList.nil) = ['[', ']'] from by decide]
          simp only [List.cons_append, List.nil_append]
          simp only [parseVal]
          rw [jSkip_stop _ (by decide)]
          have hsk2 : jSkip (']' :: rest) = ']' :: rest := jSkip_stop _ (by decide)
          simp [hsk2]
        | cons v0 l0 =>
          obtain ⟨c0, t0, hser0, hws0, hne1, hne2⟩ := ser_head v0
          have hY : ∃ Y, serItems (JList.cons v0 l0) = c0 :: Y := by
            cases l0 with
            | nil => exact ⟨t0, by simp [serItems, hser0]⟩
            | cons w l1 =>
              exact ⟨t0 ++ ',' :: serItems (JList.cons w l1), by simp [serItems, hser0]⟩
          obtain ⟨Y, hY⟩ := hY
          have hL : parseItems f (serItems (JList.cons v0 l0) ++ ']' :: rest) =
              some (JList.cons v0 l0, rest) := by
            apply ihL _ _ (by simp)
            simp only [jsize] at hsz
            omega
          rw [hY, List.cons_append] at hL
          rw [show ser (JVal.arr (JList.cons v0 l0)) =
            '[' :: (serItems (JList.cons v0 l0) ++ [']']) from by simp [ser],
            List.cons_append]
          simp only [parseVal]
          rw [jSkip_stop _ (by decide)]
          have hassoc : (serItems (JList.cons v0 l0) ++ [']']) ++ rest =
              serItems (JList.cons v0 l0) ++ ']' :: rest := by simp
          rw [hassoc, hY, List.cons_append]
          have hsk0 : jSkip (c0 :: (Y ++ ']' :: rest)) = c0 :: (Y ++ ']' :: rest) :=
            jSkip_stop _ hws0
          simp [hsk0, hne1, hL]
      | obj fs =>
        cases fs with
        | fnil =>
          rw [show ser (JVal.obj JFields.fnil) = ['\x7b', '\x7d'] from by decide]
          simp only [List.cons_append, List.nil_append]
          simp only [parseVal]
          rw [jSkip_stop _ (by decide)]
          have hsk2 : jSkip ('\x7d' :: rest) = '\x7d' :: rest := jSkip_stop _ (by decide)
          simp [hsk2]
        | fcons k v0 fs0 =>
          have hY : ∃ Y, serFields (JFields.fcons k v0 fs0) = '"' :: Y := by
            cases fs0 with
            | fnil => exact ⟨(escStr k ++ ['"']) ++ ':' :: ser v0, by simp [serFields, serStr]⟩
            | fcons k2 w fs1 =>
              exact ⟨(escStr k ++ ['"']) ++ ':' :: ser v0 ++
                ',' :: serFields (JFields.fcons k2 w fs1), by simp [serFields, serStr]⟩
          obtain ⟨Y, hY⟩ := hY
          have hF : parseFields f (serFields (JFields.fcons k v0 fs0) ++ '\x7d' :: rest) =
              some (JFields.fcons k v0 fs0, rest) := by
            apply ihF _ _ (by simp)
            simp only [jsize] at hsz
            omega
          rw [hY, List.cons_append] at hF
          rw [show ser (JVal.obj (JFields.fcons k v0 fs0)) =
            '\x7b' :: (serFields (JFields.fcons k v0 fs0) ++ ['\x7d']) from by simp [ser],
            List.cons_append]
          simp only [parseVal]
          rw [jSkip_stop _ (by decide)]
          have hassoc : (serFields (JFields.fcons k v0 fs0) ++ ['\x7d']) ++ rest =
              serFields (JFields.fcons k v0 fs0) ++ '\x7d' :: rest := by simp
          rw [hassoc, hY, List.cons_append]
          have hsk0 : jSkip ('"' :: (Y ++ '\x7d' :: rest)) = '"' :: (Y ++ '\x7d' :: rest) :=
            jSkip_stop _ (by decide)
          simp [hsk0, hF]
    · intro l rest hne hsz
      cases l with
      | nil => exact absurd rfl hne
      | cons v0 l0 =>
        cases l0 with
        | nil =>
          rw [show serItems (JList.cons v0 JList.nil) = ser v0 from by simp [serItems]]
          simp only [parseItems]
          have hv := ihV v0 (']' :: rest)
            (by simp only [jsizeL] at hsz; omega) ⟨by decide, by decide⟩
          rw [hv]
          have hsk : jSkip (']' :: rest) = ']' :: rest := jSkip_stop _ (by decide)
          simp [hsk]
        | cons w l1 =>
          have hassoc : (ser v0 ++ ',' :: serItems (JList.cons w l1)) ++ ']' :: rest =
              ser v0 ++ ',' :: (serItems (JList.cons w l1) ++ ']' :: rest) := by simp
          rw [show serItems (JList.cons v0 (JList.cons w l1)) =
            ser v0 ++ ',' :: serItems (JList.cons w l1) from by simp [serItems], hassoc]
          simp only [parseItems]
          have hv := ihV v0 (',' :: (serItems (JList.cons w l1) ++ ']' :: rest))
            (by simp only [jsizeL] at hsz; omega) ⟨by decide, by decide⟩
          rw [hv]
          have hrec := ihL (JList.cons w l1) rest (by simp)
            (by simp only [jsizeL] at hsz ⊢; omega)
          have hsk : jSkip (',' :: (serItems (JList.cons w l1) ++ ']' :: rest)) =
              ',' :: (serItems (JList.cons w l1) ++ ']' :: rest) := jSkip_stop _ (by decide)
          simp [hsk, hrec]
    · intro fs rest hne hsz
      cases fs with
      | fnil => exact absurd rfl hne
      | fcons k v0 fs0 =>
        cases fs0 with
        | fnil =>
          have hshape : serFields (JFields.fcons k v0 JFields.fnil) ++ '\x7d' :: rest =
              '"' :: (escStr k ++ '"' :: (':' :: (ser v0 ++ '\x7d' :: rest))) := by
            simp [serFields, serStr]
          rw [hshape]
          simp only [parseFields]
          rw [jSkip_stop _ (by decide)]
          have hk := parseJStr_escStr k (':' :: (ser v0 ++ '\x7d' :: rest))
          have hv := ihV v0 ('\x7d' :: rest)
            (by simp only [jsizeF] at hsz; omega) ⟨by decide, by decide⟩
          have hsk1 : jSkip (':' :: (ser v0 ++ '\x7d' :: rest)) =
              ':' :: (ser v0 ++ '\x7d' :: rest) := jSkip_stop _ (by decide)
          have hsk2 : jSkip ('\x7d' :: rest) = '\x7d' :: rest := jSkip_stop _ (by decide)
          simp [hk, hv, hsk1, hsk2]
        | fcons k2 w fs1 =>
          have hshape : serFields (JFields.fcons k v0 (JFields.fcons k2 w fs1)) ++
              '\x7d' :: rest =
              '"' :: (escStr k ++ '"' :: (':' :: (ser v0 ++
                ',' :: (serFields (JFields.fcons k2 w fs1) ++ '\x7d' :: rest)))) := by
            simp [serFields, serStr]
          rw [hshape]
          simp only [parseFields]
          rw [jSkip_stop _ (by decide)]
          have hk := parseJStr_escStr k
            (':' :: (ser v0 ++ ',' :: (serFields (JFields.fcons k2 w fs1) ++ '\x7d' :: rest)))
          have hv := ihV v0
            (',' :: (serFields (JFields.fcons k2 w fs1) ++ '\x7d' :: rest))
            (by simp only [jsizeF] at hsz; omega) ⟨by decide, by decide⟩
          have hrec := ihF (JFields.fcons k2 w fs1) rest (by simp)
            (by simp only [jsizeF] at hsz ⊢; omega)
          have hsk1 : jSkip (':' :: (ser v0 ++
              ',' :: (serFields (JFields.fcons k2 w fs1) ++ '\x7d' :: rest))) =
              ':' :: (ser v0 ++ ',' :: (serFields (JFields.fcons k2 w fs1) ++
                '\x7d' :: rest)) := jSkip_stop _ (by decide)
          have hsk2 : jSkip (',' :: (serFields (JFields.fcons k2 w fs1) ++ '\x7d' :: rest)) =
              ',' :: (serFields (JFields.fcons k2 w fs1) ++ '\x7d' :: rest) :=
            jSkip_stop _ (by decide)
          simp [hk, hv, hrec, hsk1, hsk2]

theorem ser_length_pos (v : JVal) : 1 ≤ (ser v).length := by
  obtain ⟨c, t, hser, -⟩ := ser_head v
  rw [hser]
  simp

theorem jsize_le_ser_length (n : Nat) :
    (∀ v : JVal, jsize v ≤ n → jsize v ≤ (ser v).length) ∧
    (∀ l : JList, jsizeL l ≤ n → jsizeL l ≤ (serItems l).length + 1) ∧
    (∀ fs : JFields, jsizeF fs ≤ n → jsizeF fs ≤ (serFields fs).length + 1) := by
  induction n with
  | zero =>
    refine ⟨fun v h => absurd h (by have := jsize_pos v; omega), fun l h => ?_, fun fs h => ?_⟩
    · cases l with
      | nil => simp [jsizeL, serItems]
      | cons v t =>
        exact absurd h (by
          have h2 : 0 < jsizeL (.cons v t) := jsizeL_pos (by simp)
          omega)
    · cases fs with
      | fnil => simp [jsizeF, serFields]
      | fcons k v t =>
        exact absurd h (by
          have h2 : 0 < jsizeF (.fcons k v t) := jsizeF_pos (by simp)
          omega)
  | succ n ih =>
    obtain ⟨ihV, ihL, ihF⟩ := ih
    refine ⟨?_, ?_, ?_⟩
    · intro v hv
      cases v with
      | null => simp [jsize]; exact ser_length_pos _
      | bool b => simp [jsize]; exact ser_length_pos _
      | num m e => simp [jsize]; exact ser_length_pos _
      | str s => simp [jsize]; exact ser_length_pos _
      | arr l =>
        have hl := ihL l (by simp only [jsize] at hv; omega)
        simp only [jsize] at hv ⊢
        rw [show ser (JVal.arr l) = '[' :: (serItems l ++ [']']) from by simp [ser]]
        simp only [List.length_cons, List.length_append, List.length_singleton]
        omega
      | obj fs =>
        have hf := ihF fs (by simp only [jsize] at hv; omega)
        simp only [jsize] at hv ⊢
        rw [show ser (JVal.obj fs) = '\x7b' :: (serFields fs ++ ['\x7d']) from by simp [ser]]
        simp only [List.length_cons, List.length_append, List.length_singleton]
        omega
    · intro l hl
      cases l with
      | nil => simp [jsizeL]
      | cons v t =>
        have hv := ihV v (by simp only [jsizeL] at hl; omega)
        have ht := ihL t (by simp only [jsizeL] at hl; omega)
        cases t with
        | nil =>
          simp only [jsizeL, serItems] at *
          omega
        | cons w t2 =>
          rw [show serItems (JList.cons v (JList.cons w t2)) =
            ser v ++ ',' :: serItems (JList.cons w t2) from by simp [serItems]]
          simp only [jsizeL] at hl ⊢
          simp only [jsizeL] at ht
          simp only [List.length_append, List.length_cons]
          omega
    · intro fs hf
      cases fs with
      | fnil => simp [jsizeF]
      | fcons k v t =>
        have hv := ihV v (by simp only [jsizeF] at hf; omega)
        have ht := ihF t (by simp only [jsizeF] at hf; omega)
        cases t with
        | fnil =>
          rw [show serFields (JFields.fcons k v JFields.fnil) =
            serStr k ++ ':' :: ser v from by simp [serFields]]
          simp only [jsizeF] at hf ⊢
          simp only [List.length_append, List.length_cons]
          omega
        | fcons k2 w t2 =>
          rw [show serFields (JFields.fcons k v (JFields.fcons k2 w t2)) =
            serStr k ++ ':' :: ser v ++ ',' :: serFields (JFields.fcons k2 w t2)
            from by simp [serFields]]
          simp only [jsizeF] at hf ⊢
          simp only [jsizeF] at ht
          simp only [List.length_append, List.length_cons]
          omega

/-- The model of `JSON.parse` recovers every serialized value. -/
theorem jsonParse_ser (v : JVal) : jsonParse (ser v) = some v := by
  have hle : jsize v ≤ (ser v).length := (jsize_le_ser_length (jsize v)).1 v le_rfl
  have h := (roundTrip ((ser v).length + 1)).1 v [] (by omega) trivial
  rw [List.append_nil] at h
  unfold jsonParse
  rw [h]
  simp [jSkip]

/-! ## The response normalizer: fence stripping, brace match, repairs -/

/-- One scanning step of the global replace
`/```json\s*|\s*```/g → ''` (fuelled; the fuel `length` always suffices since
every step consumes at least one character). -/
def sfGo : Nat → List Char → List Char
  | 0, l => l
  | _ + 1, [] => []
  | f + 1, c :: cs =>
    if (lstr "```json").isPrefixOf (c :: cs) then
      sfGo f (((c :: cs).drop 7).dropWhile jsWs)
    else if (lstr "```").isPrefixOf ((c :: cs).dropWhile jsWs) then
      sfGo f (((c :: cs).dropWhile jsWs).drop 3)
    else c :: sfGo f cs

/-- The markdown-fence strip `replace(/```json\s*|\s*```/g, '')`. -/
def stripFences (l : List Char) : List Char := sfGo l.length l

theorem sfGo_nil (f : Nat) : sfGo f [] = [] := by
  cases f <;> rfl

theorem isPrefixOf_length_le {l₁ l₂ : List Char} (h : l₁.isPrefixOf l₂ = true) :
    l₁.length ≤ l₂.length :=
  (List.isPrefixOf_iff_prefix.mp h).length_le

theorem sfGo_irrel : ∀ (f g : Nat) (l : List Char), l.length ≤ f → l.length ≤ g →
    sfGo f l = sfGo g l := by
  intro f
  induction f with
  | zero =>
    intro g l hf _
    cases l with
    | nil => rw [sfGo_nil, sfGo_nil]
    | cons c cs => simp at hf
  | succ f ih =>
    intro g l hf hg
    cases l with
    | nil => rw [sfGo_nil, sfGo_nil]
    | cons c cs =>
      cases g with
      | zero => simp at hg
      | succ g =>
        by_cases h1 : (lstr "```json").isPrefixOf (c :: cs) = true
        · simp only [sfGo, if_pos h1]
          apply ih
          · have := dropWhile_length_le jsWs ((c :: cs).drop 7)
            have h7 : ((c :: cs).drop 7).length = (c :: cs).length - 7 := by simp
            have hlen := isPrefixOf_length_le h1
            rw [show (lstr "```json").length = 7 from by decide] at hlen
            simp only [List.length_cons] at hf hlen h7 ⊢
            omega
          · have := dropWhile_length_le jsWs ((c :: cs).drop 7)
            have h7 : ((c :: cs).drop 7).length = (c :: cs).length - 7 := by simp
            have hlen := isPrefixOf_length_le h1
            rw [show (lstr "```json").length = 7 from by decide] at hlen
            simp only [List.length_cons] at hg hlen h7 ⊢
            omega
        · by_cases h2 : (lstr "```").isPrefixOf ((c :: cs).dropWhile jsWs) = true
          · simp only [sfGo, if_neg h1, if_pos h2]
            apply ih
            · have hd := dropWhile_length_le jsWs (c :: cs)
              have hlen := isPrefixOf_length_le h2
              rw [show (lstr "```").length = 3 from by decide] at hlen
              simp only [List.length_drop, List.length_cons] at hf ⊢
              simp only [List.length_cons] at hd
              omega
            · have hd := dropWhile_length_le jsWs (c :: cs)
              have hlen := isPrefixOf_length_le h2
              rw [show (lstr "```").length = 3 from by decide] at hlen
              simp only [List.length_drop, List.length_cons] at hg ⊢
              simp only [List.length_cons] at hd
              omega
          · simp only [sfGo, if_neg h1, if_neg h2]
            congr 1
            apply ih
            · simp only [List.length_cons] at hf
              omega
            · simp only [List.length_cons] at hg
              omega

/-- No fence-strip alternative matches at this position. -/
def sfNoMatch (l : List Char) : Prop :=
  (lstr "```json").isPrefixOf l = false ∧
    (lstr "```").isPrefixOf (l.dropWhile jsWs) = false

theorem isPrefixOf_cons_tick {d : Char} {y : List Char} (hd : d ≠ '`') :
    (lstr "```").isPrefixOf (d :: y) = false := by
  show (('`' :: lstr "``").isPrefixOf (d :: y)) = false
  simp only [List.isPrefixOf, Bool.and_eq_false_iff, beq_eq_false_iff_ne, ne_eq]
  exact Or.inl fun h => hd h.symm

theorem isPrefixOf_cons_tickJson {d : Char} {y : List Char} (hd : d ≠ '`') :
    (lstr "```json").isPrefixOf (d :: y) = false := by
  show (('`' :: lstr "``json").isPrefixOf (d :: y)) = false
  simp only [List.isPrefixOf, Bool.and_eq_false_iff, beq_eq_false_iff_ne, ne_eq]
  exact Or.inl fun h => hd h.symm

theorem isPrefixOf_nil_tick : (lstr "```").isPrefixOf ([] : List Char) = false := by
  decide

/-- If `v` holds some non-whitespace character then dropping whitespace from
`v ++ T` stops inside `v`, at its first non-whitespace character. -/
theorem dropWhile_stops_inside {v T : List Char} {d : Char} (hd : d ∈ v)
    (hws : jsWs d = false) :
    ∃ e t, (v ++ T).dropWhile jsWs = e :: (t ++ T) ∧ e ∈ v ∧ jsWs e = false := by
  induction v with
  | nil => cases hd
  | cons c cv ih =>
    by_cases hc : jsWs c = true
    · have hd2 : d ∈ cv := by
        rcases List.mem_cons.mp hd with rfl | hm
        · rw [hws] at hc; cases hc
        · exact hm
      obtain ⟨e, t, he, hm, hws2⟩ := ih hd2
      exact ⟨e, t, by rw [List.cons_append, List.dropWhile_cons_of_pos hc, he],
        List.mem_cons_of_mem c hm, hws2⟩
    · exact ⟨c, cv, by rw [List.cons_append,
        List.dropWhile_cons_of_neg (by simpa using hc)], List.mem_cons_self c cv,
        by simpa using hc⟩

/-- A position whose head character is not a backtick and whose whitespace run,
if any, is followed by a non-backtick (or nothing) matches neither alternative. -/
theorem sfNoMatch_of {c : Char} {rest : List Char} (hc : c ≠ '`')
    (hrest : jsWs c = true →
      (rest.dropWhile jsWs = [] ∨ ∃ d t, rest.dropWhile jsWs = d :: t ∧ d ≠ '`')) :
    sfNoMatch (c :: rest) := by
  constructor
  · exact isPrefixOf_cons_tickJson hc
  · by_cases hws : jsWs c = true
    · rw [List.dropWhile_cons_of_pos hws]
      rcases hrest hws with h | ⟨d, t, h, hd⟩
      · rw [h]; exact isPrefixOf_nil_tick
      · rw [h]; exact isPrefixOf_cons_tick hd
    · rw [List.dropWhile_cons_of_neg hws]
      exact isPrefixOf_cons_tick hc

/-- Positions inside a backtick-free block that ends in non-whitespace never
match a fence, whatever follows the block. -/
theorem noMatch_positions {X : List Char} (T : List Char) (hX : '`' ∉ X)
    (hlast : ∀ c, X.getLast? = some c → jsWs c = false) :
    ∀ u c v, X = u ++ c :: v → sfNoMatch (c :: (v ++ T)) := by
  intro u c v huv
  have hcX : c ∈ X := by rw [huv]; exact List.mem_append_right u (List.mem_cons_self c v)
  refine sfNoMatch_of (fun h => hX (h ▸ hcX)) fun hws => ?_
  have hv : ∃ d ∈ v, jsWs d = false := by
    cases hvf : v.getLast? with
    | none =>
      exfalso
      have hv0 : v = [] := List.getLast?_eq_none_iff.mp hvf
      subst hv0
      have : X.getLast? = some c := by
        rw [huv, List.getLast?_append_cons]
        rfl
      exact (by rw [hlast c this] at hws; cases hws)
    | some d =>
      obtain ⟨hne, heq⟩ := List.mem_getLast?_eq_getLast (show d ∈ v.getLast? from hvf)
      refine ⟨d, by rw [heq]; exact List.getLast_mem hne, ?_⟩
      apply hlast
      rw [huv]
      cases v with
      | nil => cases hvf
      | cons e t =>
        rw [List.getLast?_append_cons, List.getLast?_cons_cons]
        exact hvf
  obtain ⟨d, hdm, hdws⟩ := hv
  obtain ⟨e, t, he, hem, hews⟩ :
      ∃ e t2, (v ++ T).dropWhile jsWs = e :: (t2 ++ T) ∧ e ∈ v ∧ jsWs e = false :=
    dropWhile_stops_inside hdm hdws
  exact Or.inr ⟨e, t ++ T, he, fun h =>
    hX (h ▸ (by rw [huv]; exact List.mem_append_right u (List.mem_cons_of_mem c hem)))⟩

/-- Positions inside a backtick-free block at the very end of the input never
match a fence. -/
theorem noMatch_positions_end {X : List Char} (hX : '`' ∉ X) :
    ∀ u c v, X = u ++ c :: v → sfNoMatch (c :: v) := by
  intro u c v huv
  have hcX : c ∈ X := by rw [huv]; exact List.mem_append_right u (List.mem_cons_self c v)
  refine sfNoMatch_of (fun h => hX (h ▸ hcX)) fun _ => ?_
  cases hdv : v.dropWhile jsWs with
  | nil => exact Or.inl rfl
  | cons d t =>
    refine Or.inr ⟨d, t, rfl, fun h => hX ?_⟩
    have hdm : d ∈ v := by
      have : d ∈ v.dropWhile jsWs := by rw [hdv]; exact List.mem_cons_self d t
      exact (List.dropWhile_suffix jsWs).mem this
    subst h
    rw [huv]
    exact List.mem_append_right u (List.mem_cons_of_mem c hdm)

/-- An all-no-match block is emitted verbatim, and scanning continues on the
remainder. -/
theorem sfGo_emit : ∀ (xs : List Char) (T : List Char),
    (∀ u c v, xs = u ++ c :: v → sfNoMatch (c :: (v ++ T))) →
    ∀ f, (xs ++ T).length ≤ f → sfGo f (xs ++ T) = xs ++ sfGo T.length T := by
  intro xs
  induction xs with
  | nil =>
    intro T hno f hf
    simp only [List.nil_append] at hf ⊢
    exact sfGo_irrel f T.length T hf le_rfl
  | cons c v ihx =>
    intro T hno f hf
    cases f with
    | zero => simp at hf
    | succ f =>
      have hnm := hno [] c v rfl
      rw [List.cons_append]
      simp only [sfGo, hnm.1, hnm.2, Bool.false_eq_true, if_false]
      congr 1
      apply ihx T (fun u c2 v2 h => hno (c :: u) c2 v2 (by rw [h]; rfl)) f
      simp only [List.cons_append, List.length_cons] at hf
      omega

/-- An all-no-match input at the end of scanning is returned verbatim. -/
theorem sfGo_emit_end (xs : List Char)
    (hno : ∀ u c v, xs = u ++ c :: v → sfNoMatch (c :: v)) :
    ∀ f, xs.length ≤ f → sfGo f xs = xs := by
  intro f hf
  have h := sfGo_emit xs []
    (fun u c v huv => by rw [List.append_nil]; exact hno u c v huv) f
    (by rw [List.append_nil]; exact hf)
  rw [List.append_nil] at h
  rw [h, sfGo_nil, List.append_nil]

/-- `match(/\x7b[\s\S]*\x7d/)`: from the first opening brace through the last
closing brace, provided that span has both braces. -/
def braceMatch (l : List Char) : Option (List Char) :=
  let c := l.dropWhile (fun x => x ≠ '\x7b')
  let d := (c.reverse.dropWhile (fun x => x ≠ '\x7d')).reverse
  if 2 ≤ d.length then some d else none

/-- Global replacement of the two-character pattern `a`,`b` by `rep`,
scanning left to right without overlap. -/
def replace2 (a b : Char) (rep : List Char) : List Char → List Char
  | [] => []
  | [c] => [c]
  | c :: d :: r =>
    if c = a ∧ d = b then rep ++ replace2 a b rep r
    else c :: replace2 a b rep (d :: r)

/-- The four character-level repairs applied to the candidate JSON body. -/
def repairs (l : List Char) : List Char :=
  replace2 '\\' 'r' ['\\', 'r']
    (replace2 '\\' 't' ['\\', 't']
      (replace2 '\\' 'n' ['\\', 'n']
        (replace2 '\\' '"' ['"'] l)))

/-- The JSON-extraction pipeline of `parseValidationResponse`: trim, strip
markdown fences, take first-brace-to-last-brace, repair, strict-parse. -/
def normalizeExtract (raw : List Char) : Option JVal :=
  match braceMatch (stripFences (jsTrim raw)) with
  | none => none
  | some s => jsonParse (repairs s)

theorem dropWhile_append_headNot {p : Char → Bool} {xs Y : List Char}
    (hY : headNot p Y) : (xs ++ Y).dropWhile p = xs.dropWhile p ++ Y := by
  induction xs with
  | nil => rw [List.nil_append, List.dropWhile_nil, List.nil_append,
      dropWhile_of_headNot hY]
  | cons c t ih =>
    by_cases h : p c = true
    · rw [List.cons_append, List.dropWhile_cons_of_pos h,
        List.dropWhile_cons_of_pos h, ih]
    · rw [List.cons_append, List.dropWhile_cons_of_neg (by simpa using h),
        List.dropWhile_cons_of_neg (by simpa using h), List.cons_append]


theorem sfGo_cons_eq (f : Nat) (c : Char) (cs : List Char) :
    sfGo (f + 1) (c :: cs) =
      if (lstr "```json").isPrefixOf (c :: cs) then
        sfGo f (((c :: cs).drop 7).dropWhile jsWs)
      else if (lstr "```").isPrefixOf ((c :: cs).dropWhile jsWs) then
        sfGo f (((c :: cs).dropWhile jsWs).drop 3)
      else c :: sfGo f cs := by
  simp only [sfGo]

/-- Scanning a fence opener followed by a newline and a body whose head is not
whitespace consumes the opener, the newline and nothing else. -/
theorem sfGo_open (X : List Char) (hX : headNot jsWs X) :
    ∀ f, (lstr "```json\n" ++ X).length ≤ f + 1 →
    sfGo (f + 1) (lstr "```json\n" ++ X) = sfGo X.length X := by
  intro f hf
  have hsplit : lstr "```json\n" ++ X = lstr "```json" ++ ('\n' :: X) := by
    rw [show lstr "```json\n" = lstr "```json" ++ ['\n'] from rfl, List.append_assoc]
    rfl
  have h1 : (lstr "```json").isPrefixOf (lstr "```json\n" ++ X) = true := by
    rw [hsplit]; exact isPrefixOf_append _ _
  have hdrop : (lstr "```json\n" ++ X).drop 7 = '\n' :: X := by
    rw [hsplit]; exact List.drop_left' (by decide)
  have hdw : (('\n' : Char) :: X).dropWhile jsWs = X := by
    rw [List.dropWhile_cons_of_pos (by decide)]
    exact dropWhile_of_headNot hX
  cases hL : lstr "```json\n" ++ X with
  | nil =>
    simp only [List.append_eq_nil] at hL
    exact absurd hL.1 (by decide)
  | cons c cs =>
    rw [sfGo_cons_eq, ← hL, h1, if_pos rfl, hdrop, hdw]
    apply sfGo_irrel
    · have h8 : (lstr "```json\n").length = 8 := by decide
      rw [List.length_append, h8] at hf
      omega
    · exact le_rfl

/-- A whitespace character is never a backtick. -/
theorem ws_not_tick {c : Char} (h : jsWs c = true) : c ≠ '`' := by
  intro hc
  rw [hc] at h
  exact absurd h (by decide)

/-- Scanning a newline followed by a closing fence and backtick-free trailing
text consumes the fence and returns the trailing text verbatim. -/
theorem sfGo_close (post : List Char) (hpost : '`' ∉ post) :
    ∀ f, (lstr "\n```" ++ post).length ≤ f + 1 →
    sfGo (f + 1) (lstr "\n```" ++ post) = post := by
  intro f hf
  have hsplit : lstr "\n```" ++ post = '\n' :: (lstr "```" ++ post) := by
    rw [show lstr "\n```" = '\n' :: lstr "```" from rfl]
    rfl
  have hn1 : (lstr "```json").isPrefixOf (lstr "\n```" ++ post) = false := by
    rw [hsplit]
    exact isPrefixOf_cons_tickJson (by decide)
  have hdw : (lstr "\n```" ++ post).dropWhile jsWs = lstr "```" ++ post := by
    rw [hsplit, List.dropWhile_cons_of_pos (by decide)]
    rw [show lstr "```" ++ post = '`' :: (lstr "``" ++ post) from rfl]
    exact List.dropWhile_cons_of_neg (by decide)
  have h2 : (lstr "```").isPrefixOf (lstr "```" ++ post) = true :=
    isPrefixOf_append _ _
  have hdrop : (lstr "```" ++ post).drop 3 = post :=
    List.drop_left' (by decide)
  cases hL : lstr "\n```" ++ post with
  | nil =>
    simp only [List.append_eq_nil] at hL
    exact absurd hL.1 (by decide)
  | cons c cs =>
    rw [sfGo_cons_eq, ← hL, hn1, hdw, h2, hdrop]
    simp only [Bool.false_eq_true, if_false, if_pos rfl]
    apply sfGo_emit_end post (noMatch_positions_end hpost)
    have h4 : (lstr "\n```").length = 4 := by decide
    rw [List.length_append, h4] at hf
    omega

/-- A non-empty run of whitespace in front of an opening fence is consumed
together with the first three backticks of the fence. -/
theorem sfGo_ws_open (w X : List Char) (hw : ∀ c ∈ w, jsWs c = true)
    {w0 : Char} {wt : List Char} (hwc : w = w0 :: wt) :
    ∀ f, (w ++ (lstr "```json\n" ++ X)).length ≤ f + 1 →
    sfGo (f + 1) (w ++ (lstr "```json\n" ++ X)) =
      sfGo (lstr "json\n" ++ X).length (lstr "json\n" ++ X) := by
  intro f hf
  have hw0 : jsWs w0 = true := hw w0 (hwc ▸ List.mem_cons_self _ _)
  have hn1 : (lstr "```json").isPrefixOf (w ++ (lstr "```json\n" ++ X)) = false := by
    rw [hwc, List.cons_append]
    exact isPrefixOf_cons_tickJson (ws_not_tick hw0)
  have hdw : (w ++ (lstr "```json\n" ++ X)).dropWhile jsWs =
      lstr "```json\n" ++ X := by
    apply dropWhile_append_stop hw
    rw [show lstr "```json\n" ++ X = '`' :: (lstr "``json\n" ++ X) from rfl]
    exact headNot_cons (by decide)
  have h2 : (lstr "```").isPrefixOf (lstr "```json\n" ++ X) = true := by
    rw [show lstr "```json\n" ++ X = lstr "```" ++ (lstr "json\n" ++ X) from by
      rw [show lstr "```json\n" = lstr "```" ++ lstr "json\n" from rfl]; rw [List.append_assoc]]
    exact isPrefixOf_append _ _
  have hdrop : (lstr "```json\n" ++ X).drop 3 = lstr "json\n" ++ X := by
    rw [show lstr "```json\n" ++ X = lstr "```" ++ (lstr "json\n" ++ X) from by
      rw [show lstr "```json\n" = lstr "```" ++ lstr "json\n" from rfl]; rw [List.append_assoc]]
    exact List.drop_left' (by decide)
  cases hL : w ++ (lstr "```json\n" ++ X) with
  | nil =>
    rw [hwc] at hL
    cases hL
  | cons c cs =>
    rw [sfGo_cons_eq, ← hL, hn1, hdw, h2, hdrop]
    simp only [Bool.false_eq_true, if_false, if_pos rfl]
    apply sfGo_irrel
    · have h8 : (lstr "```json\n").length = 8 := by decide
      have h5 : (lstr "json\n").length = 5 := by decide
      rw [List.length_append, List.length_append, h8] at hf
      rw [List.length_append, h5]
      omega
    · exact le_rfl

/-- Scanning the JSON body (first char an opening brace, last char a closing
brace, no backticks) followed by the closing fence and backtick-free trailing
text emits the body, consumes the fence and keeps the trailing text. -/
theorem sfGo_body (S post : List Char) {S2 : List Char}
    (hSe : S = S2 ++ ['\x7d'])
    (hSB : '`' ∉ S) (hpostB : '`' ∉ post) :
    ∀ f, (S ++ (lstr "\n```" ++ post)).length ≤ f →
    sfGo f (S ++ (lstr "\n```" ++ post)) = S ++ post := by
  intro f hf
  have hlast : ∀ c, S.getLast? = some c → jsWs c = false := by
    intro c hc
    rw [hSe, List.getLast?_append_cons] at hc
    simp only [List.getLast?_singleton, Option.some.injEq] at hc
    rw [← hc]
    decide
  rw [sfGo_emit S (lstr "\n```" ++ post) (noMatch_positions _ hSB hlast) f hf]
  congr 1
  have h4 : (lstr "\n```" ++ post).length = (3 + post.length) + 1 := by
    rw [List.length_append, show (lstr "\n```").length = 4 from by decide]
    omega
  rw [h4]
  exact sfGo_close post hpostB _ (by rw [h4])

/-- The residue of the leading-fence quirk: whitespace before an opening fence
makes the closing-fence alternative fire first, so the scanner leaves the
literal characters `json` and a newline behind; they are emitted verbatim and
the body/close behave as in `sfGo_body`. -/
theorem sfGo_json (S post : List Char) {S1 S2 : List Char}
    (hS0 : S = '\x7b' :: S1) (hSe : S = S2 ++ ['\x7d'])
    (hSB : '`' ∉ S) (hpostB : '`' ∉ post) :
    ∀ f, (lstr "json\n" ++ (S ++ (lstr "\n```" ++ post))).length ≤ f →
    sfGo f (lstr "json\n" ++ (S ++ (lstr "\n```" ++ post))) =
      lstr "json\n" ++ (S ++ post) := by
  intro f hf
  have hsplit : ∀ Z : List Char, lstr "json\n" ++ Z = lstr "json" ++ ('\n' :: Z) := by
    intro Z
    rw [show lstr "json\n" = lstr "json" ++ ['\n'] from rfl, List.append_assoc]
    rfl
  rw [hsplit]
  rw [hsplit] at hf
  have hjs : '`' ∉ lstr "json" := by decide
  have hjl : ∀ c, (lstr "json").getLast? = some c → jsWs c = false := by decide
  rw [sfGo_emit (lstr "json") ('\n' :: (S ++ (lstr "\n```" ++ post)))
    (noMatch_positions _ hjs hjl) f (by
      rw [List.length_append] at hf ⊢
      exact hf)]
  rw [hsplit (S ++ post)]
  congr 1
  have hlen : ('\n' :: (S ++ (lstr "\n```" ++ post))).length =
      (S ++ (lstr "\n```" ++ post)).length + 1 := by
    simp
  rw [hlen]
  have hn1 : (lstr "```json").isPrefixOf ('\n' :: (S ++ (lstr "\n```" ++ post))) =
      false := isPrefixOf_cons_tickJson (by decide)
  have hdw : ('\n' :: (S ++ (lstr "\n```" ++ post))).dropWhile jsWs =
      S ++ (lstr "\n```" ++ post) := by
    rw [List.dropWhile_cons_of_pos (by decide)]
    apply dropWhile_of_headNot
    rw [hS0, List.cons_append]
    exact headNot_cons (by decide)
  have hn2 : (lstr "```").isPrefixOf
      (('\n' :: (S ++ (lstr "\n```" ++ post))).dropWhile jsWs) = false := by
    rw [hdw, hS0, List.cons_append]
    exact isPrefixOf_cons_tick (by decide)
  rw [sfGo_cons_eq, hn1, hn2]
  simp only [Bool.false_eq_true, if_false]
  congr 1
  exact sfGo_body S post hSe hSB hpostB _ le_rfl

/-- Stripping fences from prose + fenced JSON body + prose: everything the
scanner leaves before the body has its characters drawn from the leading prose
or from the literal residue characters of the quirk (`json` + newline); the
body and the trailing prose survive verbatim. -/
theorem stripFences_embed (pre S post : List Char) {S1 S2 : List Char}
    (hS0 : S = '\x7b' :: S1) (hSe : S = S2 ++ ['\x7d'])
    (hpreB : '`' ∉ pre) (hSB : '`' ∉ S) (hpostB : '`' ∉ post) :
    ∃ A, stripFences (pre ++ (lstr "```json\n" ++ (S ++ (lstr "\n```" ++ post))))
        = A ++ (S ++ post) ∧ ∀ c ∈ A, c ∈ pre ∨ c ∈ lstr "json\n" := by
  have hpre : pre = (pre.reverse.dropWhile jsWs).reverse ++
      (pre.reverse.takeWhile jsWs).reverse := by
    conv_lhs => rw [← List.reverse_reverse pre,
      ← List.takeWhile_append_dropWhile jsWs pre.reverse]
    rw [List.reverse_append]
  set a := (pre.reverse.dropWhile jsWs).reverse with ha
  set w := (pre.reverse.takeWhile jsWs).reverse with hwdef
  have haM : ∀ c ∈ a, c ∈ pre := by
    intro c hc
    rw [ha, List.mem_reverse] at hc
    have := (List.dropWhile_suffix jsWs).mem hc
    rwa [List.mem_reverse] at this
  have hwM : ∀ c ∈ w, c ∈ pre := by
    intro c hc
    rw [hwdef, List.mem_reverse] at hc
    have := (List.takeWhile_prefix jsWs).mem hc
    rwa [List.mem_reverse] at this
  have hw : ∀ c ∈ w, jsWs c = true := by
    intro c hc
    rw [hwdef, List.mem_reverse] at hc
    exact List.mem_takeWhile_imp hc
  have haL : ∀ c, a.getLast? = some c → jsWs c = false := by
    intro c hc
    rw [ha, List.getLast?_reverse] at hc
    exact dropWhile_head_not jsWs pre.reverse c hc
  have haB : '`' ∉ a := fun h => hpreB (haM _ h)
  set Rest := lstr "```json\n" ++ (S ++ (lstr "\n```" ++ post)) with hRest
  have hX0 : headNot jsWs (S ++ (lstr "\n```" ++ post)) := by
    rw [hS0, List.cons_append]
    exact headNot_cons (by decide)
  have step1 : stripFences (pre ++ Rest) =
      a ++ sfGo (w ++ Rest).length (w ++ Rest) := by
    show sfGo (pre ++ Rest).length (pre ++ Rest) = _
    conv_lhs => rw [hpre]
    rw [List.append_assoc]
    exact sfGo_emit a (w ++ Rest) (noMatch_positions _ haB haL) _ le_rfl
  cases hwc : w with
  | nil =>
    refine ⟨a, ?_, fun c hc => Or.inl (haM c hc)⟩
    rw [step1, hwc, List.nil_append, hRest]
    have hpos : (lstr "```json\n" ++ (S ++ (lstr "\n```" ++ post))).length =
        ((lstr "```json\n" ++ (S ++ (lstr "\n```" ++ post))).length - 1) + 1 := by
      rw [List.length_append, show (lstr "```json\n").length = 8 from by decide]
      omega
    congr 1
    rw [hpos, sfGo_open (S ++ (lstr "\n```" ++ post)) hX0 _ (by omega)]
    exact sfGo_body S post hSe hSB hpostB _ le_rfl
  | cons w0 wt =>
    refine ⟨a ++ lstr "json\n", ?_, fun c hc => ?_⟩
    · rw [step1, List.append_assoc]
      congr 1
      have hpos : (w ++ Rest).length = ((w ++ Rest).length - 1) + 1 := by
        rw [hwc]
        simp
      rw [hpos, hRest,
        sfGo_ws_open w (S ++ (lstr "\n```" ++ post)) hw hwc _ (by omega)]
      exact sfGo_json S post hS0 hSe hSB hpostB _ le_rfl
    · rcases List.mem_append.mp hc with h | h
      · exact Or.inl (haM c h)
      · exact Or.inr h

/-- `trim` on prose + block + prose, when the block starts and ends with
non-whitespace: the left prose loses its leading whitespace, the right prose
its trailing whitespace, and the block survives. -/
theorem jsTrim_embed (pre M post : List Char) {m0 mL : Char} {mt m2 : List Char}
    (hM0 : M = m0 :: mt) (hm0 : jsWs m0 = false)
    (hMe : M = m2 ++ [mL]) (hmL : jsWs mL = false) :
    jsTrim (pre ++ (M ++ post)) =
      pre.dropWhile jsWs ++ (M ++ (post.reverse.dropWhile jsWs).reverse) := by
  have hstep1 : (pre ++ (M ++ post)).dropWhile jsWs =
      pre.dropWhile jsWs ++ (M ++ post) := by
    apply dropWhile_append_headNot
    rw [hM0, List.cons_append]
    exact headNot_cons hm0
  have hMrev : M.reverse = mL :: m2.reverse := by
    rw [hMe, List.reverse_append]
    rfl
  have hstep3 : (post.reverse ++ (M.reverse ++ (pre.dropWhile jsWs).reverse)).dropWhile
      jsWs = post.reverse.dropWhile jsWs ++ (M.reverse ++ (pre.dropWhile jsWs).reverse) := by
    apply dropWhile_append_headNot
    rw [hMrev, List.cons_append]
    exact headNot_cons hmL
  show (((pre ++ (M ++ post)).dropWhile jsWs).reverse.dropWhile jsWs).reverse = _
  rw [hstep1, List.reverse_append, List.reverse_append, List.append_assoc, hstep3]
  rw [List.reverse_append, List.reverse_append, List.reverse_reverse,
    List.reverse_reverse]
  rw [List.append_assoc]

/-- The brace matcher on open-brace-free prose, a body delimited by braces and
close-brace-free prose extracts exactly the body. -/
theorem braceMatch_extract (P S Q : List Char) {S1 S2 : List Char}
    (hS0 : S = '\x7b' :: S1) (hSe : S = S2 ++ ['\x7d'])
    (hP : '\x7b' ∉ P) (hQ : '\x7d' ∉ Q) :
    braceMatch (P ++ (S ++ Q)) = some S := by
  have hfirst : (P ++ (S ++ Q)).dropWhile (fun x => x ≠ '\x7b') = S ++ Q := by
    apply dropWhile_append_stop
    · intro c hc
      simp only [ne_eq, decide_eq_true_eq]
      intro h
      exact hP (h ▸ hc)
    · rw [hS0, List.cons_append]
      exact headNot_cons (by simp)
  have hrev : (S ++ Q).reverse = Q.reverse ++ ('\x7d' :: S2.reverse) := by
    rw [List.reverse_append, hSe, List.reverse_append]
    rfl
  have hlastd : ((S ++ Q).reverse.dropWhile (fun x => x ≠ '\x7d')) =
      '\x7d' :: S2.reverse := by
    rw [hrev]
    apply dropWhile_append_stop
    · intro c hc
      simp only [ne_eq, decide_eq_true_eq]
      intro h
      exact hQ (h ▸ (List.mem_reverse.mp hc))
    · exact headNot_cons (by simp)
  have hback : (('\x7d' : Char) :: S2.reverse).reverse = S := by
    rw [List.reverse_cons, List.reverse_reverse, ← hSe]
  have hlen : 2 ≤ S.length := by
    rcases S1 with _ | ⟨x, xs⟩
    · exfalso
      rw [hS0] at hSe
      rcases S2 with _ | ⟨y, ys⟩
      · exact absurd hSe (by decide)
      · have h2 := congrArg List.length hSe
        simp at h2
    · rw [hS0, List.length_cons, List.length_cons]
      omega
  simp only [braceMatch, hfirst, hlastd, hback, if_pos hlen]

/-- Replacing a two-character pattern by itself changes nothing. -/
theorem replace2_self (a b : Char) : ∀ l, replace2 a b [a, b] l = l
  | [] => by simp [replace2]
  | [c] => by simp [replace2]
  | c :: d :: r => by
    simp only [replace2]
    by_cases h : c = a ∧ d = b
    · rw [if_pos h, replace2_self a b r, h.1, h.2]
      rfl
    · rw [if_neg h, replace2_self a b (d :: r)]

/-- Replacing a two-character pattern that does not occur changes nothing. -/
theorem replace2_noMatch (a b : Char) (rep : List Char) :
    ∀ l, containsSub [a, b] l = false → replace2 a b rep l = l
  | [] => fun _ => by simp [replace2]
  | [c] => fun _ => by simp [replace2]
  | c :: d :: r => fun h => by
    have hcs : ([a, b].isPrefixOf (c :: d :: r) || containsSub [a, b] (d :: r)) =
        false := by
      simpa [containsSub] using h
    rw [Bool.or_eq_false_iff] at hcs
    simp only [replace2]
    by_cases hab : c = a ∧ d = b
    · exfalso
      have hp : [a, b].isPrefixOf (c :: d :: r) = true := by
        rw [hab.1, hab.2]
        exact isPrefixOf_append [a, b] r
      rw [hp] at hcs
      exact absurd hcs.1 (by decide)
    · rw [if_neg hab, replace2_noMatch a b rep (d :: r) hcs.2]

/-- On a body with no escaped quote, all four repairs are the identity. -/
theorem repairs_id {l : List Char} (h : containsSub ['\\', '"'] l = false) :
    repairs l = l := by
  unfold repairs
  rw [replace2_noMatch _ _ _ l h, replace2_self, replace2_self, replace2_self]

/-- C8 (amended): the extraction pipeline of `parseValidationResponse`
recovers a fenced JSON object surrounded by prose, provided the leading prose
contains no opening brace and no backtick, the trailing prose contains no
closing brace and no backtick, and the serialized object contains no backtick
and no escaped-quote character pair (which the quote repair would corrupt). -/
theorem normalizer_roundtrip_amended (fs : JFields) (pre post : List Char)
    (hpreB : '`' ∉ pre) (hpreL : '\x7b' ∉ pre)
    (hpostB : '`' ∉ post) (hpostR : '\x7d' ∉ post)
    (hSB : '`' ∉ ser (JVal.obj fs))
    (hEsc : containsSub ['\\', '"'] (ser (JVal.obj fs)) = false) :
    normalizeExtract (pre ++ (lstr "```json\n" ++
      (ser (JVal.obj fs) ++ (lstr "\n```" ++ post)))) = some (JVal.obj fs) := by
  have hS0 : ser (JVal.obj fs) = '\x7b' :: (serFields fs ++ ['\x7d']) := by
    simp only [ser]
  have hSe : ser (JVal.obj fs) = ('\x7b' :: serFields fs) ++ ['\x7d'] := by
    rw [hS0]
    rfl
  set S := ser (JVal.obj fs) with hSdef
  set MID := lstr "```json\n" ++ (S ++ lstr "\n```") with hMID
  have hassoc : pre ++ (lstr "```json\n" ++ (S ++ (lstr "\n```" ++ post))) =
      pre ++ (MID ++ post) := by
    rw [hMID, List.append_assoc, List.append_assoc]
  have hM0 : MID = '`' :: (lstr "``json\n" ++ (S ++ lstr "\n```")) := by
    rw [hMID]
    rfl
  have hMe : MID = (lstr "```json\n" ++ (S ++ lstr "\n``")) ++ ['`'] := by
    rw [hMID, List.append_assoc, List.append_assoc,
      show lstr "\n``" ++ ['`'] = lstr "\n```" from rfl]
  have htrim : jsTrim (pre ++ (MID ++ post)) =
      pre.dropWhile jsWs ++ (MID ++ (post.reverse.dropWhile jsWs).reverse) :=
    jsTrim_embed pre MID post hM0 (by decide) hMe (by decide)
  set preT := pre.dropWhile jsWs with hpreT
  set postT := (post.reverse.dropWhile jsWs).reverse with hpostT
  have hpreTm : ∀ c ∈ preT, c ∈ pre := fun c hc => (List.dropWhile_suffix jsWs).mem hc
  have hpostTm : ∀ c ∈ postT, c ∈ post := by
    intro c hc
    rw [hpostT, List.mem_reverse] at hc
    have := (List.dropWhile_suffix jsWs).mem hc
    rwa [List.mem_reverse] at this
  have hassoc2 : preT ++ (MID ++ postT) =
      preT ++ (lstr "```json\n" ++ (S ++ (lstr "\n```" ++ postT))) := by
    rw [hMID, List.append_assoc, List.append_assoc]
  obtain ⟨A, hA, hAmem⟩ := stripFences_embed preT S postT hS0 hSe
    (fun h => hpreB (hpreTm _ h)) hSB (fun h => hpostB (hpostTm _ h))
  have hAL : '\x7b' ∉ A := by
    intro h
    rcases hAmem _ h with h2 | h2
    · exact hpreL (hpreTm _ h2)
    · exact absurd h2 (by decide)
  have hbm : braceMatch (stripFences (jsTrim (pre ++ (MID ++ post)))) = some S := by
    rw [htrim, hassoc2, hA]
    exact braceMatch_extract A S postT hS0 hSe hAL
      (fun h => hpostR (hpostTm _ h))
  rw [hassoc]
  show normalizeExtract (pre ++ (MID ++ post)) = some (JVal.obj fs)
  unfold normalizeExtract
  rw [hbm]
  show jsonParse (repairs S) = some (JVal.obj fs)
  rw [repairs_id hEsc, hSdef, jsonParse_ser]


/-- A response object whose feedback text contains double quotes: its
serialization contains the escaped-quote pair that the repair step corrupts. -/
def v0 : JVal :=
  .obj (.fcons (lstr "feedback") (.str (lstr "say \"hi\"")) .fnil)

/-- `v0` fenced and surrounded by prose, exactly the shape of the round-trip
claim. -/
def raw0 : List Char :=
  lstr "Here is the validation result:\n" ++ (lstr "```json\n" ++
    (ser v0 ++ (lstr "\n```" ++ lstr "\nDone.")))

/-- C8 counterexample: for the well-formed JSON object `v0` embedded in a
markdown code fence with prose before and after it, the extraction pipeline
does not recover the object — the escaped-quote repair corrupts the body and
the strict parse fails, so the pipeline returns nothing at all. -/
theorem normalizer_roundtrip_counterexample :
    raw0 = lstr "Here is the validation result:\n" ++ (lstr "```json\n" ++
      (ser v0 ++ (lstr "\n```" ++ lstr "\nDone."))) ∧
    normalizeExtract raw0 = none ∧ normalizeExtract raw0 ≠ some v0 :=
  ⟨rfl, by decide, by decide⟩

/-- A well-formed validation object satisfying the amended side conditions. -/
def fs1 : JFields :=
  .fcons (lstr "isCorrect") (.bool true)
    (.fcons (lstr "feedback") (.str (lstr "Great job!")) .fnil)

theorem normalizer_roundtrip_amended_witness :
    normalizeExtract (lstr "Sure!\n" ++ (lstr "```json\n" ++
      (ser (JVal.obj fs1) ++ (lstr "\n```" ++ lstr "\nHope this helps.")))) =
      some (JVal.obj fs1) :=
  normalizer_roundtrip_amended fs1 (lstr "Sure!\n") (lstr "\nHope this helps.")
    (by decide) (by decide) (by decide) (by decide) (by decide) (by decide)

/-! ## `cleanFeedback`: the feedback-sanitizing pipeline -/

/-- `replace(/^[\x7b\[]/, '')`. -/
def stripHeadBracket (l : List Char) : List Char :=
  match l with
  | c :: r => if c = '\x7b' ∨ c = '[' then r else l
  | [] => []

/-- `replace(/[\x7d\]]$/, '')`. -/
def stripTailBracket (l : List Char) : List Char :=
  match l.reverse with
  | c :: r => if c = '\x7d' ∨ c = ']' then r.reverse else l
  | [] => []

/-- `replace(/^"|"$/g, '')`: one leading and one trailing quote. -/
def qstripG (l : List Char) : List Char :=
  let l1 := match l with
    | '"' :: r => r
    | _ => l
  match l1.reverse with
  | '"' :: r => r.reverse
  | _ => l1

/-- The first stage of `cleanFeedback`: bracket/quote strips, the four
escape repairs (with real newline/tab/return replacements) and a trim. -/
def cfStage1 (l : List Char) : List Char :=
  jsTrim (replace2 '\\' 'r' ['\r']
    (replace2 '\\' 't' ['\t']
      (replace2 '\\' 'n' ['\n']
        (replace2 '\\' '"' ['"']
          (qstripG (stripTailBracket (stripHeadBracket l)))))))

/-- Case-insensitive literal-prefix consumption (the field names and the
pattern punctuation; `/i` only matters on ASCII letters here). -/
def eatCI : List Char → List Char → Option (List Char)
  | [], l => some l
  | _ :: _, [] => none
  | p :: ps, c :: cs => if lowerChar c = lowerChar p then eatCI ps cs else none

/-- `replace(/^"NAME":\s*"?/i, '')`. -/
def stripFieldA (name : String) (l : List Char) : List Char :=
  match eatCI ('"' :: (lstr name ++ ['"', ':'])) l with
  | none => l
  | some r =>
    match r.dropWhile jsWs with
    | '"' :: r3 => r3
    | r3 => r3

/-- `replace(/^"NAME"\s*:\s*"?/i, '')`. -/
def stripFieldB (name : String) (l : List Char) : List Char :=
  match eatCI ('"' :: (lstr name ++ ['"'])) l with
  | none => l
  | some r =>
    match r.dropWhile jsWs with
    | ':' :: r2 =>
      (match r2.dropWhile jsWs with
        | '"' :: r3 => r3
        | r3 => r3)
    | _ => l

/-- `replace(/^NAME":\s*"?/i, '')` (the malformed-JSON variants). -/
def stripFieldC (name : String) (l : List Char) : List Char :=
  match eatCI (lstr name ++ ['"', ':']) l with
  | none => l
  | some r =>
    match r.dropWhile jsWs with
    | '"' :: r3 => r3
    | r3 => r3

/-- The eighteen field-name strips, in source order (innermost first). -/
def cfFieldStrips (l : List Char) : List Char :=
  stripFieldC "explanation" (stripFieldC "confidence" (stripFieldC "isCorrect"
    (stripFieldC "suggestions" (stripFieldC "feedback" (stripFieldC "score"
      (stripFieldB "suggestions" (stripFieldB "score" (stripFieldB "confidence"
        (stripFieldB "isCorrect" (stripFieldB "explanation" (stripFieldB "feedback"
          (stripFieldA "suggestions" (stripFieldA "score" (stripFieldA "confidence"
            (stripFieldA "isCorrect" (stripFieldA "explanation"
              (stripFieldA "feedback" l)))))))))))))))))

def wsOnly (l : List Char) : Bool := l.all jsWs

/-- Can close a `/",?\s*$/` match: optional comma then whitespace to the end. -/
def tailQOk (r : List Char) : Bool :=
  wsOnly r || (match r with
    | ',' :: r2 => wsOnly r2
    | _ => false)

/-- `replace(/",?\s*$/, '')`: delete from the leftmost quote that is followed
only by an optional comma and whitespace. -/
def stripTrailQ : List Char → List Char
  | [] => []
  | c :: r => if c = '"' ∧ tailQOk r = true then [] else c :: stripTrailQ r

/-- `replace(/^,/, '')`. -/
def stripHeadComma (l : List Char) : List Char :=
  match l with
  | ',' :: r => r
  | _ => l

/-- `replace(/,$/, '')`. -/
def stripTailComma (l : List Char) : List Char :=
  match l.reverse with
  | ',' :: r => r.reverse
  | _ => l

/-- The trailing-artifact stage (the `",?\s*$` replace appears twice in the
source). -/
def cfStage3 (l : List Char) : List Char :=
  qstripG (stripTailComma (stripHeadComma (stripTrailQ (stripTrailQ l))))

def quoteWs (c : Char) : Bool := c == '"' || jsWs c

/-- A match of the split separator `/["\s]*[a-zA-Z]+["\s]*:\s*/` anchored at
the head: quote/whitespace run, letters, quote/whitespace run, colon,
whitespace run. -/
def sepMatch (l : List Char) : Option (List Char) :=
  let r1 := l.dropWhile quoteWs
  if (r1.takeWhile isAlpha).isEmpty then none
  else
    match (r1.dropWhile isAlpha).dropWhile quoteWs with
    | ':' :: r4 => some (r4.dropWhile jsWs)
    | _ => none

/-- The text after the last separator match, if the separator occurs at all
(`split(...)` then `parts[parts.length - 1]`). -/
def scanSplitF : Nat → List Char → Option (List Char)
  | 0, _ => none
  | _ + 1, [] => none
  | f + 1, c :: r =>
    match sepMatch (c :: r) with
    | some rest =>
      some (match scanSplitF f rest with
        | some x => x
        | none => rest)
    | none => scanSplitF f r

/-- The malformed-pattern salvage: if a quoted field name is still visible,
keep only what follows the last field-separator shape. -/
def cfSplitStep (l : List Char) : List Char :=
  if containsSub (lstr "\"score\":") l || containsSub (lstr "\"feedback\":") l ||
      containsSub (lstr "\"suggestions\":") l then
    match scanSplitF l.length l with
    | some last => last
    | none => l
  else l

/-- The final artifact strip. -/
def cfStage5 (l : List Char) : List Char :=
  jsTrim (qstripG (stripTailBracket (stripHeadBracket l)))

/-- Does the first character match the emoji class of the source regex?  The
class is written with UTF-16 code units, so it contains the three BMP emoji
and the high surrogates `D83C`–`D83E`, which as leading units cover exactly
the scalars `1F000`–`1FBFF`. -/
def emojiHead (l : List Char) : Bool :=
  match l with
  | [] => false
  | c :: _ =>
    c.toNat == 0x2705 || c.toNat == 0x274C || c.toNat == 0x2728 ||
      (decide (0x1F000 ≤ c.toNat) && decide (c.toNat ≤ 0x1FBFF))

/-- The keyword-driven emoji prefix added when the text does not already start
with an emoji. -/
def cfEmoji (l : List Char) : List Char :=
  if l ≠ [] ∧ emojiHead l = false then
    let low := jsLower l
    if containsSub (lstr "correct") low || containsSub (lstr "good") low ||
        containsSub (lstr "excellent") low || containsSub (lstr "great") low then
      lstr "✅ " ++ l
    else if containsSub (lstr "wrong") low || containsSub (lstr "incorrect") low ||
        containsSub (lstr "error") low then
      lstr "❌ " ++ l
    else if containsSub (lstr "hint") low || containsSub (lstr "try") low ||
        containsSub (lstr "remember") low then
      lstr "💡 " ++ l
    else lstr "📝 " ++ l
  else l

/-- `cleanFeedback`. -/
def cleanFeedback (l : List Char) : List Char :=
  if l.isEmpty then []
  else jsTrim (cfEmoji (cfStage5 (cfSplitStep (cfStage3 (cfFieldStrips (cfStage1 l))))))

/-! ## JavaScript value coercions on parsed JSON -/

/-- JavaScript truthiness of a JSON value. -/
def truthy : JVal → Bool
  | .null => false
  | .bool b => b
  | .num m _ => m != 0
  | .str s => !s.isEmpty
  | .arr _ => true
  | .obj _ => true

/-- Property lookup on a parsed object: `JSON.parse` keeps the last duplicate
key, and access on any non-object JSON value gives `undefined` (`none`). -/
def lookupF (k : List Char) : JFields → Option JVal
  | .fnil => none
  | .fcons k2 v rest =>
    match lookupF k rest with
    | some r => some r
    | none => if k2 = k then some v else none

def getField (v : JVal) (k : String) : Option JVal :=
  match v with
  | .obj fs => lookupF (lstr k) fs
  | _ => none

/-- The JavaScript number domain reachable from `Number(x)` on JSON values:
a finite (here: rational) value, an infinity, or `NaN`. -/
inductive JNum where
  | fin (q : Rat)
  | posInf
  | negInf
  | nan
deriving DecidableEq, Repr

def jnFalsy : JNum → Bool
  | .nan => true
  | .fin q => q == 0
  | _ => false

def hexToNat (l : List Char) : Nat :=
  l.foldl (fun a c => 16 * a + (parseHex c).getD 0) 0

def isOctDigit (c : Char) : Bool := '0' ≤ c && c ≤ '7'

def octToNat (l : List Char) : Nat :=
  l.foldl (fun a c => 8 * a + digitVal c) 0

def isBinDigit (c : Char) : Bool := c = '0' || c = '1'

def binToNat (l : List Char) : Nat :=
  l.foldl (fun a c => 2 * a + digitVal c) 0

/-- The value of `DecimalDigits . DecimalDigits`. -/
def decValue (int fr : List Char) : Rat :=
  (digitsToNat int : Rat) + (digitsToNat fr : Rat) / (10 : Rat) ^ fr.length

def expApply (base : Rat) (neg : Bool) (e : Nat) : Rat :=
  if neg then base / (10 : Rat) ^ e else base * (10 : Rat) ^ e

/-- `ExponentPart` after the `e`/`E`, which must consume the whole rest. -/
def parseExpTail (l : List Char) : Option (Bool × Nat) :=
  match l with
  | '+' :: r =>
    let p := dSpan r
    if p.1.isEmpty || !p.2.isEmpty then none else some (false, digitsToNat p.1)
  | '-' :: r =>
    let p := dSpan r
    if p.1.isEmpty || !p.2.isEmpty then none else some (true, digitsToNat p.1)
  | _ =>
    let p := dSpan l
    if p.1.isEmpty || !p.2.isEmpty then none else some (false, digitsToNat p.1)

/-- `StrUnsignedDecimalLiteral` without `Infinity`, consuming the whole
input. -/
def decLit (l : List Char) : Option Rat :=
  let p := dSpan l
  match p.2 with
  | [] => if p.1.isEmpty then none else some (decValue p.1 [])
  | '.' :: r2 =>
    let q := dSpan r2
    if p.1.isEmpty && q.1.isEmpty then none
    else
      match q.2 with
      | [] => some (decValue p.1 q.1)
      | e :: r4 =>
        if e = 'e' ∨ e = 'E' then
          match parseExpTail r4 with
          | some pr => some (expApply (decValue p.1 q.1) pr.1 pr.2)
          | none => none
        else none
  | e :: r4 =>
    if p.1.isEmpty then none
    else if e = 'e' ∨ e = 'E' then
      match parseExpTail r4 with
      | some pr => some (expApply (decValue p.1 []) pr.1 pr.2)
      | none => none
    else none

/-- The non-decimal integer literals `0x…`, `0o…`, `0b…` (unsigned only). -/
def nonDecLit (l : List Char) : Option Rat :=
  match l with
  | '0' :: x :: ds =>
    if x = 'x' ∨ x = 'X' then
      if !ds.isEmpty && ds.all (fun c => (parseHex c).isSome) then
        some (hexToNat ds : Rat)
      else none
    else if x = 'o' ∨ x = 'O' then
      if !ds.isEmpty && ds.all isOctDigit then some (octToNat ds : Rat) else none
    else if x = 'b' ∨ x = 'B' then
      if !ds.isEmpty && ds.all isBinDigit then some (binToNat ds : Rat) else none
    else none
  | _ => none

def unsignedNum (l : List Char) (neg : Bool) : JNum :=
  if l = lstr "Infinity" then (if neg then .negInf else .posInf)
  else
    match decLit l with
    | some q => .fin (if neg then -q else q)
    | none => .nan

/-- `Number(string)`: trim, empty is `0`, optional sign on the decimal or
`Infinity` forms, unsigned non-decimal forms, anything else `NaN`. -/
def strNum (l : List Char) : JNum :=
  match jsTrim l with
  | [] => .fin 0
  | '+' :: r => unsignedNum r false
  | '-' :: r => unsignedNum r true
  | t =>
    match nonDecLit t with
    | some q => .fin q
    | none => unsignedNum t false

mutual

/-- `String(x)` as it appears inside `Array.prototype.join` (`null` joins as
empty text). -/
def elemStr : JVal → List Char
  | .null => []
  | .bool true => lstr "true"
  | .bool false => lstr "false"
  | .num m e => serNum m e
  | .str s => s
  | .arr l => arrJoin l
  | .obj _ => lstr "[object Object]"

/-- `Array.prototype.toString`, a comma join. -/
def arrJoin : JList → List Char
  | .nil => []
  | .cons v .nil => elemStr v
  | .cons v (.cons w rest) => elemStr v ++ ',' :: arrJoin (.cons w rest)

end

/-- `Number(x)` on a JSON value. -/
def jsNumber : JVal → JNum
  | .null => .fin 0
  | .bool true => .fin 1
  | .bool false => .fin 0
  | .num m e => .fin ((m : Rat) / (10 : Rat) ^ e)
  | .str s => strNum s
  | .arr l => strNum (arrJoin l)
  | .obj _ => .nan

/-- `x || 0.5`. -/
def numOrHalf (x : JNum) : JNum := if jnFalsy x then .fin 0.5 else x

/-- `Math.max(0, Math.min(1, x))` (the `NaN` case is unreachable after the
falsy default). -/
def clampJ : JNum → Rat
  | .fin q => max 0 (min 1 q)
  | .posInf => 1
  | .negInf => 0
  | .nan => 0.5

/-! ## `parseValidationResponse` and `validateMathStep` -/

/-- Building the result from the parsed JSON value; `none` models a thrown
`TypeError` (`cleanFeedback` called on a truthy non-string), which the
surrounding `catch` turns into the keyword fallback. -/
def buildResult (v : JVal) : Option StepValidationResult :=
  let fb? : Option (List Char) :=
    match getField v "feedback" with
    | some fv =>
      if truthy fv then
        match fv with
        | .str s => some s
        | _ => none
      else some (lstr "No feedback provided")
    | none => some (lstr "No feedback provided")
  match fb? with
  | none => none
  | some fbs =>
    let ex? : Option (Option (List Char)) :=
      match getField v "explanation" with
      | some ev =>
        if truthy ev then
          match ev with
          | .str s => some (some (cleanFeedback s))
          | _ => none
        else
          match ev with
          | .str s => some (some s)
          | _ => some none
      | none => some none
    match ex? with
    | none => none
    | some exv =>
      some ⟨truthy ((getField v "isCorrect").getD .null),
        (cleanFeedback fbs).asString,
        exv.map List.asString,
        clampJ (numOrHalf (match getField v "confidence" with
          | some cv => jsNumber cv
          | none => .nan))⟩

/-- The keyword-scan fallback of `parseValidationResponse`. -/
def keywordFallback (resp : List Char) : StepValidationResult :=
  let cleaned := cleanFeedback resp
  let low := jsLower cleaned
  let isC := containsSub (lstr "correct") low || containsSub (lstr "valid") low ||
    containsSub (lstr "true") low
  ⟨isC,
    ((cleaned.take 200) ++ (if 200 < cleaned.length then lstr "..." else [])).asString,
    none,
    if isC then 0.8 else 0.3⟩

/-- `parseValidationResponse`: the JSON path (extraction, repair, strict
parse, coercion) with the keyword fallback on any failure. -/
def parseValidationResponse (resp : List Char) : StepValidationResult :=
  match braceMatch (stripFences (jsTrim resp)) with
  | none => keywordFallback resp
  | some body =>
    match jsonParse (repairs body) with
    | none => keywordFallback resp
    | some v =>
      match buildResult v with
      | some res => res
      | none => keywordFallback resp

/-- The two ways the Completion capability can come back. -/
inductive CompletionOutcome where
  | success (content : List Char)
  | failure
deriving DecidableEq, Repr

/-- `validateMathStep`: parse the model response on success; on any thrown
error, heuristic fallback for non-blank input and a fixed zero-confidence
result for blank input. -/
def validateMathStep (r : Nat) (latex : String) (o : CompletionOutcome) :
    StepValidationResult :=
  match o with
  | .success content => parseValidationResponse content
  | .failure =>
    if (jsTrim latex.data).isEmpty then
      ⟨false,
        "Unable to validate step. Please check your internet connection and try again.",
        none, 0⟩
    else fallbackValidation r latex


/-! ## Confidence-range lemmas -/

theorem clampJ_range (x : JNum) : 0 ≤ clampJ x ∧ clampJ x ≤ 1 := by
  cases x with
  | fin q =>
    refine ⟨le_max_left 0 _, max_le (by norm_num) (min_le_left 1 q)⟩
  | posInf => exact ⟨by norm_num [clampJ], by norm_num [clampJ]⟩
  | negInf => exact ⟨by norm_num [clampJ], by norm_num [clampJ]⟩
  | nan => exact ⟨by norm_num [clampJ], by norm_num [clampJ]⟩

theorem gssf_conf_range (r : Nat) (l : List Char) :
    0 ≤ (getStepSpecificFeedback r l).confidence ∧
      (getStepSpecificFeedback r l).confidence ≤ 1 := by
  simp only [getStepSpecificFeedback]
  constructor <;> repeat' split <;> norm_num

theorem cfcm_conf_range {l : List Char} {res : StepValidationResult}
    (h : checkForCommonMistakes l = some res) :
    0 ≤ res.confidence ∧ res.confidence ≤ 1 := by
  simp only [checkForCommonMistakes] at h
  repeat' split at h
  all_goals first
    | (cases h; exact ⟨by norm_num, by norm_num⟩)
    | cases h

theorem fallbackValidation_conf_range (r : Nat) (latex : String) :
    0 ≤ (fallbackValidation r latex).confidence ∧
      (fallbackValidation r latex).confidence ≤ 1 := by
  simp only [fallbackValidation]
  split
  · exact cfcm_conf_range (by assumption)
  · split
    · exact gssf_conf_range r _
    · constructor <;> repeat' split <;> norm_num

theorem keywordFallback_conf_range (resp : List Char) :
    0 ≤ (keywordFallback resp).confidence ∧ (keywordFallback resp).confidence ≤ 1 := by
  constructor <;> simp only [keywordFallback] <;> split <;> norm_num

theorem buildResult_conf_range {v : JVal} {res : StepValidationResult}
    (h : buildResult v = some res) :
    0 ≤ res.confidence ∧ res.confidence ≤ 1 := by
  simp only [buildResult] at h
  repeat' split at h
  all_goals first
    | (cases h; exact clampJ_range _)
    | cases h

theorem parseValidationResponse_conf_range (resp : List Char) :
    0 ≤ (parseValidationResponse resp).confidence ∧
      (parseValidationResponse resp).confidence ≤ 1 := by
  unfold parseValidationResponse
  split
  · exact keywordFallback_conf_range resp
  · split
    · exact keywordFallback_conf_range resp
    · split
      · exact buildResult_conf_range (by assumption)
      · exact keywordFallback_conf_range resp

/-- C1: for every latex input, every randomness outcome and every result of
the Completion capability (a response string, including malformed ones, or a
thrown error), `validateMathStep` yields a result — it is a total function in
this model, mirroring that every code path is caught — whose confidence lies
within [0,1]. -/
theorem validateMathStep_confidence_range (r : Nat) (latex : String)
    (o : CompletionOutcome) :
    0 ≤ (validateMathStep r latex o).confidence ∧
      (validateMathStep r latex o).confidence ≤ 1 := by
  cases o with
  | success content => exact parseValidationResponse_conf_range content
  | failure =>
    simp only [validateMathStep]
    by_cases hb : (jsTrim latex.data).isEmpty = true
    · rw [if_pos hb]
      exact ⟨by norm_num, by norm_num⟩
    · rw [if_neg hb]
      exact fallbackValidation_conf_range r latex

/-! ## The keyword fallback and the `incorrect` overmatch -/

theorem containsSub_iff {pat l : List Char} :
    containsSub pat l = true ↔ pat <:+: l := by
  induction l with
  | nil =>
    simp [containsSub, List.isEmpty_iff, List.infix_nil]
  | cons c r ih =>
    simp [containsSub, List.infix_cons_iff, List.isPrefixOf_iff_prefix, ih]

theorem containsSub_mono {pat1 pat2 l : List Char} (hp : pat2 <:+: pat1)
    (h : containsSub pat1 l = true) : containsSub pat2 l = true :=
  containsSub_iff.mpr (hp.trans (containsSub_iff.mp h))

/-- C9: when the JSON path of `parseValidationResponse` fails — no brace
match, a strict-parse failure, or a thrown coercion — the keyword fallback
decides by substring scan of the cleaned response: a cleaned text containing
`incorrect` contains `correct` and is therefore classified correct with
confidence 0.8, and only a cleaned text containing none of `correct`, `valid`
and `true` (case-insensitively) is classified incorrect, with confidence
0.3. -/
theorem keyword_fallback_overmatch (resp : List Char)
    (hfail : braceMatch (stripFences (jsTrim resp)) = none ∨
      (∃ body, braceMatch (stripFences (jsTrim resp)) = some body ∧
        jsonParse (repairs body) = none) ∨
      (∃ body v, braceMatch (stripFences (jsTrim resp)) = some body ∧
        jsonParse (repairs body) = some v ∧ buildResult v = none)) :
    (containsSub (lstr "incorrect") (jsLower (cleanFeedback resp)) = true →
      (parseValidationResponse resp).isCorrect = true ∧
      (parseValidationResponse resp).confidence = 0.8) ∧
    (containsSub (lstr "correct") (jsLower (cleanFeedback resp)) = false ∧
      containsSub (lstr "valid") (jsLower (cleanFeedback resp)) = false ∧
      containsSub (lstr "true") (jsLower (cleanFeedback resp)) = false →
      (parseValidationResponse resp).isCorrect = false ∧
      (parseValidationResponse resp).confidence = 0.3) := by
  have hkw : parseValidationResponse resp = keywordFallback resp := by
    rcases hfail with h1 | ⟨body, h1, h2⟩ | ⟨body, v, h1, h2, h3⟩
    · simp only [parseValidationResponse, h1]
    · simp only [parseValidationResponse, h1, h2]
    · simp only [parseValidationResponse, h1, h2, h3]
  rw [hkw]
  constructor
  · intro hin
    have hc : containsSub (lstr "correct") (jsLower (cleanFeedback resp)) = true :=
      containsSub_mono (by decide) hin
    simp only [keywordFallback, hc, Bool.true_or]
    exact ⟨by first | trivial | rfl, by first | trivial | rfl⟩
  · intro ⟨hc, hv, ht⟩
    simp only [keywordFallback, hc, hv, ht, Bool.false_or]
    exact ⟨by first | trivial | rfl, by first | trivial | rfl⟩

theorem keyword_fallback_overmatch_witness :
    (parseValidationResponse (lstr "This is incorrect")).isCorrect = true ∧
    (parseValidationResponse (lstr "This is incorrect")).confidence = 0.8 :=
  (keyword_fallback_overmatch (lstr "This is incorrect")
    (Or.inl (by decide))).1 (by decide)

/-! ## `cleanSuggestion` -/

/-- `replace(/^[•\-\*]\s*/, '')`. -/
def csBullet (l : List Char) : List Char :=
  match l with
  | c :: r => if c = '•' ∨ c = '-' ∨ c = '*' then r.dropWhile jsWs else l
  | [] => []

/-- `replace(/^📝\s*/, '')`. -/
def csEmojiStrip (l : List Char) : List Char :=
  match l with
  | c :: r => if c = '📝' then r.dropWhile jsWs else l
  | [] => []

/-- `replace(/^LIT\s*/, '')` for a literal prefix. -/
def csLit (pat : String) (l : List Char) : List Char :=
  if (lstr pat).isPrefixOf l then (l.drop (lstr pat).length).dropWhile jsWs else l

/-- `replace(/^\(x = \d+\)\.?\s*/, '')`. -/
def csSolEx (l : List Char) : List Char :=
  match l with
  | '(' :: 'x' :: ' ' :: '=' :: ' ' :: r =>
    let p := dSpan r
    if p.1.isEmpty then l
    else
      match p.2 with
      | ')' :: r2 =>
        (match r2 with
          | '.' :: r3 => r3.dropWhile jsWs
          | _ => r2.dropWhile jsWs)
      | _ => l
  | _ => l

/-- The prefix-stripping stage of `cleanSuggestion`, in source order. -/
def csStage1 (l : List Char) : List Char :=
  jsTrim (csLit "Add" (csLit "Include" (csLit "Verify" (csSolEx
    (csLit "Thus" (csLit "e.g." (csEmojiStrip (csBullet l))))))))

/-- `replace(/\\[a-zA-Z]+\{[^}]*\}/g, '')` (fuelled scanner). -/
def texCmdScan : Nat → List Char → List Char
  | 0, l => l
  | _ + 1, [] => []
  | f + 1, c :: r =>
    if c = '\\' then
      if (r.takeWhile isAlpha).isEmpty then c :: texCmdScan f r
      else
        match r.dropWhile isAlpha with
        | '\x7b' :: r3 =>
          (match r3.dropWhile (fun x => x ≠ '\x7d') with
            | '\x7d' :: r5 => texCmdScan f r5
            | _ => c :: texCmdScan f r)
        | _ => c :: texCmdScan f r
    else c :: texCmdScan f r

/-- `replace(/\{[^}]*\}/g, '')` (fuelled scanner). -/
def braceScan : Nat → List Char → List Char
  | 0, l => l
  | _ + 1, [] => []
  | f + 1, c :: r =>
    if c = '\x7b' then
      match r.dropWhile (fun x => x ≠ '\x7d') with
      | '\x7d' :: r5 => braceScan f r5
      | _ => c :: braceScan f r
    else c :: braceScan f r

/-- The LaTeX-removal stage of `cleanSuggestion`. -/
def csStage2 (l : List Char) : List Char :=
  let a := replace2 '\\' ')' [] (replace2 '\\' '(' [] l)
  let b := texCmdScan a.length a
  let c := braceScan b.length b
  jsTrim (c.filter (fun x => !(x == '\\')))

/-- The unconditional keyword-driven emoji prefix of `cleanSuggestion`. -/
def csEmojiAdd (l : List Char) : List Char :=
  let low := jsLower l
  if containsSub (lstr "verify") low || containsSub (lstr "check") low ||
      containsSub (lstr "substitute") low then lstr "🔍 " ++ l
  else if containsSub (lstr "add") low || containsSub (lstr "include") low ||
      containsSub (lstr "step") low then lstr "📝 " ++ l
  else if containsSub (lstr "explain") low || containsSub (lstr "understanding") low ||
      containsSub (lstr "reinforce") low then lstr "📚 " ++ l
  else if containsSub (lstr "practice") low || containsSub (lstr "review") low ||
      containsSub (lstr "focus") low then lstr "🎯 " ++ l
  else lstr "💡 " ++ l

/-- `cleanSuggestion`. -/
def cleanSuggestion (l : List Char) : List Char :=
  if l.isEmpty then []
  else jsTrim (csEmojiAdd (csStage2 (csStage1 l)))

/-! ## `parseSolutionEvaluation` -/

/-- `String(x)` on a JSON value. -/
def jsString : JVal → List Char
  | .null => lstr "null"
  | .bool true => lstr "true"
  | .bool false => lstr "false"
  | .num m e => serNum m e
  | .str s => s
  | .arr l => arrJoin l
  | .obj _ => lstr "[object Object]"

def jlistToList : JList → List JVal
  | .nil => []
  | .cons v r => v :: jlistToList r

/-- A JavaScript `x >= b` comparison (`NaN` compares false). -/
def jnGe (x : JNum) (b : Rat) : Bool :=
  match x with
  | .fin q => decide (b ≤ q)
  | .posInf => true
  | .negInf => false
  | .nan => false

/-- `generateDefaultSuggestions`, banded on the (coerced) score. -/
def generateDefaultSuggestions (x : JNum) : List String :=
  if jnGe x 90 then
    ["🎯 Try more complex problems to challenge yourself",
     "🌟 Consider exploring advanced topics like quadratic equations",
     "💪 Keep up the excellent work!"]
  else if jnGe x 70 then
    ["📚 Review the steps you missed and understand the correct approach",
     "🎯 Practice similar problems to strengthen your skills",
     "💡 Focus on the areas that need improvement"]
  else if jnGe x 50 then
    ["📖 Focus on understanding the fundamental algebraic rules",
     "🔍 Break down complex problems into smaller, manageable steps",
     "🧮 Double-check your arithmetic calculations"]
  else
    ["📚 Review basic algebraic operations and rules",
     "🎯 Start with simpler problems and gradually increase difficulty",
     "💪 Don\x27t hesitate to ask for help when you need it"]

def eatLit (pat : List Char) (l : List Char) : Option (List Char) :=
  if pat.isPrefixOf l then some (l.drop pat.length) else none

/-- One anchored attempt of the malformed-JSON regex
`/["\s]*score["\s]*:\s*(\d+),["\s]*feedback["\s]*:\s*"([^"]+)",["\s]*suggestions["\s]*:\s*\[([^\]]*)\]/`,
returning the three capture groups. -/
def msMatchAt (l : List Char) : Option (List Char × List Char × List Char) :=
  match eatLit (lstr "score") (l.dropWhile quoteWs) with
  | none => none
  | some r1 =>
    match r1.dropWhile quoteWs with
    | ':' :: r2 =>
      let r3 := r2.dropWhile jsWs
      let ds := r3.takeWhile Char.isDigit
      if ds.isEmpty then none
      else
        match r3.dropWhile Char.isDigit with
        | ',' :: r4 =>
          match eatLit (lstr "feedback") (r4.dropWhile quoteWs) with
          | none => none
          | some r5 =>
            match r5.dropWhile quoteWs with
            | ':' :: r6 =>
              match r6.dropWhile jsWs with
              | '"' :: r7 =>
                let fb := r7.takeWhile (fun x => x ≠ '"')
                if fb.isEmpty then none
                else
                  match r7.dropWhile (fun x => x ≠ '"') with
                  | '"' :: ',' :: r8 =>
                    match eatLit (lstr "suggestions") (r8.dropWhile quoteWs) with
                    | none => none
                    | some r9 =>
                      match r9.dropWhile quoteWs with
                      | ':' :: r10 =>
                        match r10.dropWhile jsWs with
                        | '[' :: r11 =>
                          (match r11.dropWhile (fun x => x ≠ ']') with
                            | ']' :: _ => some (ds, fb, r11.takeWhile (fun x => x ≠ ']'))
                            | _ => none)
                        | _ => none
                      | _ => none
                  | _ => none
              | _ => none
            | _ => none
        | _ => none
    | _ => none

/-- Leftmost search of the malformed-JSON pattern. -/
def msScan : Nat → List Char → Option (List Char × List Char × List Char)
  | 0, _ => none
  | _ + 1, [] => none
  | f + 1, c :: r =>
    match msMatchAt (c :: r) with
    | some x => some x
    | none => msScan f r

/-- First alternative of the score-salvage regex: `(\d+)\/100`. -/
def scoreAlt1 (l : List Char) : Option (List Char) :=
  let ds := l.takeWhile Char.isDigit
  if ds.isEmpty then none
  else
    match l.dropWhile Char.isDigit with
    | '/' :: '1' :: '0' :: '0' :: _ => some ds
    | _ => none

/-- Second alternative: `score[:\s]*(\d+)` (case-insensitive). -/
def scoreAlt2 (l : List Char) : Option (List Char) :=
  match eatCI (lstr "score") l with
  | none => none
  | some r =>
    let ds := (r.dropWhile (fun c => c == ':' || jsWs c)).takeWhile Char.isDigit
    if ds.isEmpty then none else some ds

/-- Leftmost search of `/(\d+)\/100|score[:\s]*(\d+)/i`. -/
def scoreScan : Nat → List Char → Option (List Char)
  | 0, _ => none
  | _ + 1, [] => none
  | f + 1, c :: r =>
    match scoreAlt1 (c :: r) with
    | some ds => some ds
    | none =>
      match scoreAlt2 (c :: r) with
      | some ds => some ds
      | none => scoreScan f r

def clamp100 (q : Rat) : Rat := max 0 (min 100 q)

def clamp100J : JNum → Rat
  | .fin q => max 0 (min 100 q)
  | .posInf => 100
  | .negInf => 0
  | .nan => 0

/-- `x || 0`. -/
def numOrZero (x : JNum) : JNum := if jnFalsy x then .fin 0 else x

/-- The final salvage path of `parseSolutionEvaluation`: score regex over the
raw response, default 50, truncated cleaned feedback, default suggestions. -/
def solScoreFallback (resp : List Char) : SolutionEvaluation :=
  let score : Rat :=
    match scoreScan resp.length resp with
    | some ds => (digitsToNat ds : Rat)
    | none => 50
  ⟨clamp100 score,
    (cleanFeedback (resp.take 500)).asString ++
      (if 500 < resp.length then "..." else ""),
    generateDefaultSuggestions (.fin score)⟩

/-- The coercion of the parsed JSON evaluation object; `none` models the
`TypeError` thrown by `cleanFeedback` on a truthy non-string feedback. -/
def buildSolResult (v : JVal) : Option SolutionEvaluation :=
  let fb? : Option (List Char) :=
    match getField v "feedback" with
    | some fv =>
      if truthy fv then
        match fv with
        | .str s => some s
        | _ => none
      else some (lstr "No feedback provided.")
    | none => some (lstr "No feedback provided.")
  match fb? with
  | none => none
  | some fbs =>
    let sugs :=
      match getField v "suggestions" with
      | some (.arr l) =>
        ((jlistToList l).map (fun x => cleanSuggestion (jsString x))).filter
          (fun s => !(jsTrim s).isEmpty)
      | _ => []
    let sugs2 :=
      if sugs.isEmpty then
        generateDefaultSuggestions
          (match getField v "score" with
            | some sv => if truthy sv then jsNumber sv else .fin 0
            | none => .fin 0)
      else sugs.map List.asString
    some ⟨clamp100J (numOrZero (match getField v "score" with
        | some sv => jsNumber sv
        | none => .nan)),
      (cleanFeedback fbs).asString,
      sugs2⟩

/-- `parseSolutionEvaluation`: malformed-pattern salvage, then the JSON path,
then the score-regex fallback. -/
def parseSolutionEvaluation (resp : List Char) : SolutionEvaluation :=
  let cleaned := stripFences (jsTrim resp)
  match msScan cleaned.length cleaned with
  | some (ds, fb, sg) =>
    let score := clamp100 (digitsToNat ds : Rat)
    let sugs :=
      if !(jsTrim sg).isEmpty then
        ((sg.splitOn ',').map (fun s => cleanSuggestion (qstripG (jsTrim s)))).filter
          (fun s => !(jsTrim s).isEmpty)
      else []
    let sugs2 :=
      if sugs.isEmpty then generateDefaultSuggestions (.fin score)
      else sugs.map List.asString
    ⟨score, (cleanFeedback fb).asString, sugs2⟩
  | none =>
    match braceMatch cleaned with
    | some body =>
      match jsonParse (repairs body) with
      | none => solScoreFallback resp
      | some v =>
        match buildSolResult v with
        | some res => res
        | none => solScoreFallback resp
    | none => solScoreFallback resp

/-- `evaluateCompleteSolution`: parse the model evaluation on success, use the
deterministic accuracy-based fallback on any thrown error. -/
def evaluateCompleteSolution (sol : SolutionData) (o : CompletionOutcome) :
    SolutionEvaluation :=
  match o with
  | .success content => parseSolutionEvaluation content
  | .failure => fallbackSolutionEvaluation sol

/-! ## C2: score and suggestion invariants -/

theorem clamp100_range (q : Rat) : 0 ≤ clamp100 q ∧ clamp100 q ≤ 100 :=
  ⟨le_max_left 0 _, max_le (by norm_num) (min_le_left 100 q)⟩

theorem clamp100J_range (x : JNum) : 0 ≤ clamp100J x ∧ clamp100J x ≤ 100 := by
  cases x with
  | fin q => exact clamp100_range q
  | posInf => exact ⟨by norm_num [clamp100J], by norm_num [clamp100J]⟩
  | negInf => exact ⟨by norm_num [clamp100J], by norm_num [clamp100J]⟩
  | nan => exact ⟨by norm_num [clamp100J], by norm_num [clamp100J]⟩

theorem gds_ne_nil (x : JNum) : generateDefaultSuggestions x ≠ [] := by
  unfold generateDefaultSuggestions
  split_ifs <;> simp

theorem solAccuracy_range (sol : SolutionData) :
    0 ≤ solAccuracy sol ∧ solAccuracy sol ≤ 100 := by
  unfold solAccuracy
  by_cases h : sol.steps.length > 0
  · rw [if_pos h]
    have hle : ((sol.steps.filter (·.isCorrect)).length : Rat) ≤
        (sol.steps.length : Rat) := by
      exact_mod_cast List.length_filter_le _ _
    have hpos : (0 : Rat) < (sol.steps.length : Rat) := by exact_mod_cast h
    constructor
    · positivity
    · have hq : ((sol.steps.filter (·.isCorrect)).length : Rat) /
          (sol.steps.length : Rat) ≤ 1 := by
        rw [div_le_one hpos]
        exact hle
      nlinarith
  · rw [if_neg h]
    norm_num

theorem jsRound_range {q : Rat} (h0 : 0 ≤ q) (h1 : q ≤ 100) :
    0 ≤ jsRound q ∧ jsRound q ≤ 100 := by
  unfold jsRound
  constructor
  · have : (0 : Int) ≤ ⌊q + 1 / 2⌋ := by
      apply Int.le_floor.mpr
      push_cast
      linarith
    exact_mod_cast this
  · have h2 : (⌊(201 / 2 : Rat)⌋ : Int) = 100 := by
      rw [Int.floor_eq_iff] <;> norm_num
    have hmono : ⌊q + 1 / 2⌋ ≤ ⌊(201 / 2 : Rat)⌋ := Int.floor_mono (by linarith)
    rw [h2] at hmono
    exact_mod_cast hmono

theorem fallbackSolutionEvaluation_inv (sol : SolutionData) :
    0 ≤ (fallbackSolutionEvaluation sol).score ∧
    (fallbackSolutionEvaluation sol).score ≤ 100 ∧
    (fallbackSolutionEvaluation sol).suggestions ≠ [] := by
  obtain ⟨ha0, ha1⟩ := solAccuracy_range sol
  obtain ⟨hr0, hr1⟩ := jsRound_range ha0 ha1
  simp only [fallbackSolutionEvaluation]
  refine ⟨?_, ?_, ?_⟩
  · by_cases hacc : solAccuracy sol = 100
    · rw [if_pos hacc]
      exact le_min (by norm_num) (by linarith)
    · rw [if_neg hacc]
      exact hr0
  · by_cases hacc : solAccuracy sol = 100
    · rw [if_pos hacc]
      exact min_le_left _ _
    · rw [if_neg hacc]
      exact hr1
  · split_ifs <;> simp

theorem solScoreFallback_inv (resp : List Char) :
    0 ≤ (solScoreFallback resp).score ∧ (solScoreFallback resp).score ≤ 100 ∧
      (solScoreFallback resp).suggestions ≠ [] := by
  simp only [solScoreFallback]
  exact ⟨(clamp100_range _).1, (clamp100_range _).2, gds_ne_nil _⟩

theorem map_asString_ne_nil {l : List (List Char)} (h : l.isEmpty = false) :
    l.map List.asString ≠ [] := by
  cases l with
  | nil => cases h
  | cons a t => simp

theorem buildSolResult_inv {v : JVal} {res : SolutionEvaluation}
    (h : buildSolResult v = some res) :
    0 ≤ res.score ∧ res.score ≤ 100 ∧ res.suggestions ≠ [] := by
  simp only [buildSolResult] at h
  repeat' split at h
  all_goals try cases h
  all_goals refine ⟨(clamp100J_range _).1, (clamp100J_range _).2, ?_⟩
  all_goals dsimp only
  all_goals first
    | exact gds_ne_nil _
    | (apply map_asString_ne_nil
       simp_all)

theorem parseSolutionEvaluation_inv (resp : List Char) :
    0 ≤ (parseSolutionEvaluation resp).score ∧
    (parseSolutionEvaluation resp).score ≤ 100 ∧
    (parseSolutionEvaluation resp).suggestions ≠ [] := by
  simp only [parseSolutionEvaluation]
  split
  · refine ⟨(clamp100_range _).1, (clamp100_range _).2, ?_⟩
    dsimp only
    repeat' split
    all_goals first
      | exact gds_ne_nil _
      | (apply map_asString_ne_nil
         simp_all)
  · split
    · split
      · exact solScoreFallback_inv resp
      · split
        · exact buildSolResult_inv (by assumption)
        · exact solScoreFallback_inv resp
    · exact solScoreFallback_inv resp

/-- C2: on every path of `evaluateCompleteSolution` — strict JSON parse,
malformed-JSON salvage, score-regex fallback, or Completion failure — and for
every input, the returned score lies in [0,100] and the suggestions list is
non-empty, a default set being substituted whenever the upstream path yields
none. -/
theorem evaluateCompleteSolution_invariants (sol : SolutionData)
    (o : CompletionOutcome) :
    0 ≤ (evaluateCompleteSolution sol o).score ∧
    (evaluateCompleteSolution sol o).score ≤ 100 ∧
    (evaluateCompleteSolution sol o).suggestions ≠ [] := by
  cases o with
  | success content => exact parseSolutionEvaluation_inv content
  | failure => exact fallbackSolutionEvaluation_inv sol
